import Mathlib

/-! # Gang scheduler: node cache and placement pipeline

A shallow embedding of `cmd/scheduler/cache.go`, `cmd/scheduler/utils.go` and the
scheduling part of `cmd/scheduler/main.go`.

Modelling conventions.

* Go `int` is the 64-bit signed integer: values are `Int`s and every subtraction of the
  source is `isub`, which wraps around at 64 bits as Go does.
* A Go `map[string]resources` is an association list with distinct keys. Indexing a
  missing key yields the zero value, assigning to a missing key adds an entry.
* Go maps are reference objects: `nodeCache.cache` is an address into a `Heap` of map
  objects, so that `clone` really allocates a second object and aliasing is visible.
* The order in which `range` visits a map is not fixed by Go. Every loop over a map
  takes the visiting order (a list of keys) as an explicit argument.
* Channels are modelled by lists (FIFO); capacity and blocking are not modelled.
-/

namespace GangScheduler

/-! ## Data model (`cache.go`) -/

/-- Current resources associated to each node. -/
structure resources where
  cpu : Int
  memory : Int
  cost : Int
deriving DecidableEq, Repr

/-- A Go `map[string]resources` value. -/
abbrev ResourceMap := List (String × resources)

/-- The keys of a map, in storage order. -/
def mapKeys (m : ResourceMap) : List String := m.map Prod.fst

/-- Go `m[key]` as an expression: the stored value, or the zero value of `resources`. -/
def mapGet : ResourceMap → String → resources
  | [], _ => ⟨0, 0, 0⟩
  | (k, v) :: rest, key => if k = key then v else mapGet rest key

/-- Go `m[key] = v`: overwrite the entry of `key`, or add one. -/
def mapSet : ResourceMap → String → resources → ResourceMap
  | [], key, v => [(key, v)]
  | (k, w) :: rest, key, v => if k = key then (k, v) :: rest else (k, w) :: mapSet rest key v

/-- The map objects allocated so far; a map reference is a position in this list. -/
structure Heap where
  maps : List ResourceMap
deriving DecidableEq, Repr

/-- The map object stored at address `r`. -/
def Heap.read (h : Heap) (r : Nat) : ResourceMap := h.maps.getD r []

/-- Replace the map object stored at address `r` (no effect when nothing is stored there;
the theorems assume that the cache object exists). -/
def Heap.write (h : Heap) (r : Nat) (m : ResourceMap) : Heap := ⟨h.maps.set r m⟩

/-- Go `make(map[string]resources)`: a fresh empty map object and its address. -/
def Heap.alloc (h : Heap) : Nat × Heap := (h.maps.length, ⟨h.maps ++ [[]]⟩)

/-- Map from nodeName to resources; the field holds a reference to the map object. -/
structure nodeCache where
  cache : Nat
deriving DecidableEq, Repr

/-! ## `utils.go` -/

/-- Largest value of a 64-bit Go `int`. -/
def maxInt : Int := 9223372036854775807

/-- Smallest value of a 64-bit Go `int`. -/
def minInt : Int := -9223372036854775808

/-- Reduction of an integer to the 64-bit two's complement range: the value that a Go
`int` operation stores when the exact result is `x`. -/
def wrap64 (x : Int) : Int :=
  (x + 9223372036854775808) % 18446744073709551616 - 9223372036854775808

/-- Go `a - b` on `int`. -/
def isub (a b : Int) : Int := wrap64 (a - b)

/-- Outcome of Go `strconv.ParseUint(s, 10, 64)`: a value, a malformed string (Go returns
0), or a value out of range (Go returns the largest `uint64`). -/
inductive UintResult where
  | value (n : Nat)
  | malformed
  | outOfRange
deriving DecidableEq, Repr

/-- Digit loop of Go `strconv.ParseUint` in base 10: the characters are read from the left;
a character that is not a digit stops with `malformed`, a digit that would take the value
beyond the largest `uint64` stops with `outOfRange`, whatever follows. -/
def parseUintLoop : List Char → Nat → UintResult
  | [], n => UintResult.value n
  | c :: rest, n =>
    if c.isDigit then
      if n ≥ 1844674407370955162 then UintResult.outOfRange
      else if n * 10 + (c.toNat - 48) > 18446744073709551615 then UintResult.outOfRange
      else parseUintLoop rest (n * 10 + (c.toNat - 48))
    else UintResult.malformed

/-- Go `strconv.ParseUint(s, 10, 64)`. -/
def parseUint (s : List Char) : UintResult :=
  if s.isEmpty then UintResult.malformed else parseUintLoop s 0

/-- The value returned by Go `strconv.ParseInt(s, 10, 0)` on a 64-bit platform, the error
being dropped: 0 for a malformed string, the nearest bound for a value out of range. -/
def parseInt (s : List Char) : Int :=
  if s.isEmpty then 0
  else
    let neg : Bool := match s with
      | '-' :: _ => true
      | _ => false
    let body := match s with
      | '+' :: t => t
      | '-' :: t => t
      | _ => s
    match parseUint body with
    | UintResult.malformed => 0
    | UintResult.outOfRange => if neg then minInt else maxInt
    | UintResult.value un =>
      if !neg && un ≥ 9223372036854775808 then maxInt
      else if neg && un > 9223372036854775808 then minInt
      else if neg then -(un : Int) else (un : Int)

/-- The function `toInt`: Go `strconv.Atoi` with its error dropped. `Atoi` has a second
path for strings shorter than 19 bytes, which returns the same values as `ParseInt`. -/
def toInt (value : String) : Int := parseInt value.toList

/-- Loop of `clone`: `clone.cache[key] = value` for every visited entry of `c.cache`. -/
def cloneLoop (c clone : nodeCache) : List String → Heap → Heap
  | [], h => h
  | key :: rest, h =>
    let value := mapGet (h.read c.cache) key
    cloneLoop c clone rest (h.write clone.cache (mapSet (h.read clone.cache) key value))

/-- The method `clone`: a new map object holding a copy of every entry. -/
def clone (h : Heap) (c : nodeCache) (order : List String) : nodeCache × Heap :=
  let a := h.alloc
  let clone : nodeCache := ⟨a.1⟩
  (clone, cloneLoop c clone order a.2)

/-! ## `cache.go` -/

/-- Loop of `podFits` over the visited keys. -/
def podFitsLoop (m : ResourceMap) (podCPU podMEM : String) : List String → Bool
  | [] => false
  | key :: rest =>
    let value := mapGet m key
    if isub value.cpu (toInt podCPU) > 0 ∧ isub value.memory (toInt podMEM) > 0 then true
    else podFitsLoop m podCPU podMEM rest

/-- The method `podFits`. It performs no assignment: the heap is returned as received. -/
def podFits (h : Heap) (c : nodeCache) (order : List String) (podCPU podMEM : String) :
    Bool × Heap :=
  (podFitsLoop (h.read c.cache) podCPU podMEM order, h)

/-- Loop of `subtractPod`: the first visited entry with room is reduced. -/
def subtractPodLoop (h : Heap) (c : nodeCache) (cpu mem : Int) : List String → Bool × Heap
  | [] => (false, h)
  | key :: rest =>
    let value := mapGet (h.read c.cache) key
    if isub value.cpu cpu > 0 ∧ isub value.memory mem > 0 then
      (true, h.write c.cache
        (mapSet (h.read c.cache) key ⟨isub value.cpu cpu, isub value.memory mem, value.cost⟩))
    else subtractPodLoop h c cpu mem rest

/-- The method `subtractPod`. -/
def subtractPod (h : Heap) (c : nodeCache) (order : List String) (cpu mem : Int) :
    Bool × Heap :=
  subtractPodLoop h c cpu mem order

/-- Loop `for i := 0; i < count; i++` of `multiplePodsFit`: `n` iterations remain, the
next one has index `i`. -/
def multiplePodsFitLoop (workingCache : nodeCache) (orders : Nat → List String)
    (cpu mem : Int) : Nat → Nat → Heap → Bool × Heap
  | 0, _, h => (true, h)
  | n + 1, i, h =>
    let r := subtractPod h workingCache (orders i) cpu mem
    if r.1 then multiplePodsFitLoop workingCache orders cpu mem n (i + 1) r.2
    else (false, r.2)

/-- The method `multiplePodsFit`. `cloneOrder` is the order in which `clone` visits the
cache and `orders i` the order of the `subtractPod` call of iteration `i`. -/
def multiplePodsFit (h : Heap) (c : nodeCache) (cloneOrder : List String)
    (orders : Nat → List String) (podCount podCPU podMEM : String) : Bool × Heap :=
  let cpu := toInt podCPU
  let mem := toInt podMEM
  let count := toInt podCount
  let w := clone h c cloneOrder
  multiplePodsFitLoop w.1 orders cpu mem count.toNat 0 w.2

/-- Loop of `schedulePod`; the accumulator is `(bestNode, minCost)`. -/
def schedulePodLoop (m : ResourceMap) (cpu mem : String) :
    List String → String × Int → String × Int
  | [], acc => acc
  | key :: rest, acc =>
    let value := mapGet m key
    if value.cost < acc.2 ∧
        (isub value.cpu (toInt cpu) > 0 ∧ isub value.memory (toInt mem) > 0) then
      schedulePodLoop m cpu mem rest (key, value.cost)
    else schedulePodLoop m cpu mem rest acc

/-- The method `schedulePod`: returns `bestNode` and the heap after the assignment. -/
def schedulePod (h : Heap) (c : nodeCache) (order : List String) (cpu mem : String) :
    String × Heap :=
  let best := schedulePodLoop (h.read c.cache) cpu mem order ("", 100)
  let bestNode := best.1
  let minCost := best.2
  let m := h.read c.cache
  (bestNode, h.write c.cache (mapSet m bestNode
    ⟨isub (mapGet m bestNode).cpu (toInt cpu), isub (mapGet m bestNode).memory (toInt mem),
      minCost⟩))

/-- Loop of `getNodeList`. `lister i` is what the call number `i` of `lister.List`
returns, `calls` counts the calls made so far, and `fuel` bounds the number of
iterations of the unbounded `for`. On return: the returned list and the number of calls. -/
def getNodeListLoop (lister : Nat → List String) :
    Nat → Nat → Int → Option (List String × Nat)
  | 0, _, _ => none
  | fuel + 1, calls, counter =>
    let warmingThreshold : Int := 4
    let result1 := lister calls
    let result2 := lister (calls + 1)
    let counter := if result1.length = result2.length then counter + 1 else counter
    if counter = warmingThreshold then some (result1, calls + 2)
    else getNodeListLoop lister fuel (calls + 2) counter

/-- The function `getNodeList` (nodes are represented by their names). -/
def getNodeList (fuel : Nat) (lister : Nat → List String) : Option (List String × Nat) :=
  getNodeListLoop lister fuel 0 1

/-! ## `main.go` -/

def POD_ROLE_LABEL_KEY : String := "spark-role"
def DRIVER_POD_LABEL_VALUE : String := "driver"
def DRIVER_CPU_LABEL_KEY : String := "driver-cpu"
def DRIVER_MEM_LABEL_KEY : String := "driver-mem"
def DRIVER_EXEC_COUNT_LABEL_KEY : String := "executors"
def DRIVER_EXEC_CPU_LABEL_KEY : String := "exec-cpu"
def DRIVER_EXEC_MEM_LABEL_KEY : String := "exec-mem"
def EXECUTOR_POD_LABEL_VALUE : String := "executor"

/-- The fields of `v1.Pod` that the scheduler reads. -/
structure Pod where
  Namespace : String
  Name : String
  Labels : List (String × String)
deriving DecidableEq, Repr

/-- Go `pod.Labels[key]`: the label value, or the empty string. -/
def label (pod : Pod) (key : String) : String :=
  match pod.Labels.lookup key with
  | some v => v
  | none => ""

structure Binding where
  pod : Pod
  nodeName : String
deriving DecidableEq, Repr

structure Event where
  pod : Pod
  message : String
deriving DecidableEq, Repr

/-- The package-level variables of `main.go`, together with the heap of map objects. -/
structure Globals where
  heap : Heap
  nodeUsageCache : nodeCache
  eventsQueue : List Event
  bindingQueue : List Binding
deriving DecidableEq, Repr

/-- The visiting orders used by the map loops of one `chooseNode` call. -/
structure RangeOrders where
  fits : List String
  clone : List String
  sub : Nat → List String
  sched : List String

/-- The method `driverFits`. -/
def driverFits (h : Heap) (nodeUsageCache : nodeCache) (o : RangeOrders) (pod : Pod) :
    Bool × Heap :=
  podFits h nodeUsageCache o.fits (label pod DRIVER_CPU_LABEL_KEY)
    (label pod DRIVER_MEM_LABEL_KEY)

/-- The method `executorsFit`. -/
def executorsFit (h : Heap) (nodeUsageCache : nodeCache) (o : RangeOrders) (pod : Pod) :
    Bool × Heap :=
  multiplePodsFit h nodeUsageCache o.clone o.sub (label pod DRIVER_EXEC_COUNT_LABEL_KEY)
    (label pod DRIVER_EXEC_CPU_LABEL_KEY) (label pod DRIVER_EXEC_MEM_LABEL_KEY)

/-- The method `chooseNode`: the returned pair `(string, error)`, with `none` for a nil
error, and the heap after the call. `&&` evaluates `executorsFit` only when `driverFits`
holds. -/
def chooseNode (h : Heap) (nodeUsageCache : nodeCache) (o : RangeOrders) (pod : Pod) :
    (String × Option String) × Heap :=
  if label pod POD_ROLE_LABEL_KEY = DRIVER_POD_LABEL_VALUE then
    let d := driverFits h nodeUsageCache o pod
    let e := if d.1 then executorsFit d.2 nodeUsageCache o pod else (false, d.2)
    if e.1 then
      let r := schedulePod e.2 nodeUsageCache o.sched (label pod DRIVER_CPU_LABEL_KEY)
        (label pod DRIVER_MEM_LABEL_KEY)
      ((r.1, none), r.2)
    else (("", some "The spark job does not fit into the cluster"), e.2)
  else if label pod POD_ROLE_LABEL_KEY = EXECUTOR_POD_LABEL_VALUE then
    let r := schedulePod h nodeUsageCache o.sched (label pod DRIVER_EXEC_CPU_LABEL_KEY)
      (label pod DRIVER_EXEC_MEM_LABEL_KEY)
    ((r.1, none), r.2)
  else (("", some "It shouldn't reach this"), h)

/-- The method `ScheduleCycle`, for the pod received from `s.podQueue`. -/
def ScheduleCycle (g : Globals) (o : RangeOrders) (pod : Pod) : Globals :=
  let r := chooseNode g.heap g.nodeUsageCache o pod
  let node := r.1.1
  let err := r.1.2
  if err ≠ none then { g with heap := r.2 }
  else
    let message := "Placed pod [" ++ pod.Namespace ++ "/" ++ pod.Name ++ "] on " ++ node ++ "\n"
    { g with
      heap := r.2
      bindingQueue := g.bindingQueue ++ [⟨pod, node⟩]
      eventsQueue := g.eventsQueue ++ [⟨pod, message⟩] }

/-! ## Specification vocabulary -/

/-- The test that `podFits`, `subtractPod` and `schedulePod` apply to one entry, as the
code computes it. -/
def hasRoom (m : ResourceMap) (cpu mem : Int) (key : String) : Prop :=
  isub (mapGet m key).cpu cpu > 0 ∧ isub (mapGet m key).memory mem > 0

instance (m : ResourceMap) (cpu mem : Int) (key : String) : Decidable (hasRoom m cpu mem key) := by
  unfold hasRoom; infer_instance

/-- The same test over the exact integers: `cpu > cpu` and `memory > mem`. -/
def roomExact (m : ResourceMap) (cpu mem : Int) (key : String) : Prop :=
  (mapGet m key).cpu - cpu > 0 ∧ (mapGet m key).memory - mem > 0

/-- The integer `x` is a value of the 64-bit Go `int`. -/
def inRange (x : Int) : Prop := minInt ≤ x ∧ x ≤ maxInt

instance (x : Int) : Decidable (inRange x) := by
  unfold inRange; infer_instance

/-- No entry of `m` makes the subtraction of the request `(cpu, mem)` leave the 64-bit
range: for every node, `cpu - cpu` and `memory - mem` are values of `int`. -/
def NoOverflow (m : ResourceMap) (cpu mem : Int) : Prop :=
  ∀ key ∈ mapKeys m,
    inRange ((mapGet m key).cpu - cpu) ∧ inRange ((mapGet m key).memory - mem)

instance (m : ResourceMap) (cpu mem : Int) : Decidable (NoOverflow m cpu mem) := by
  unfold NoOverflow; infer_instance

/-- The map that the loop of `clone` builds in the new object. -/
def cloneMap (src : ResourceMap) : List String → ResourceMap → ResourceMap
  | [], acc => acc
  | key :: rest, acc => cloneMap src rest (mapSet acc key (mapGet src key))

/-- A distribution of `n` units of shape `(cpu, mem)` over the nodes of `m`: node `key`
takes `k key` units, the numbers add up to `n`, and every node that takes at least one
unit keeps positive residual cpu and memory. -/
def Distribution (m : ResourceMap) (cpu mem : Int) (n : Nat) (k : String → Nat) : Prop :=
  ((mapKeys m).map k).sum = n ∧
  ∀ key ∈ mapKeys m, 0 < k key →
    (mapGet m key).cpu - (k key : Int) * cpu > 0 ∧
    (mapGet m key).memory - (k key : Int) * mem > 0

/-! ## Sample inputs -/

/-- The two-node cluster of the specification scenario. -/
def heapAB : Heap := ⟨[[("A", ⟨8, 16, 1⟩), ("B", ⟨4, 8, 0⟩)]]⟩

/-- A single node with 4 cores and 8 GB. -/
def heapA : Heap := ⟨[[("A", ⟨4, 8, 0⟩)]]⟩

/-- The package-level state over `heapA`, with empty queues. -/
def globalsA : Globals := ⟨heapA, ⟨0⟩, [], []⟩

/-- Visiting orders for a cache whose only key is "A". -/
def ordersA : RangeOrders := ⟨["A"], ["A"], fun _ => ["A"], ["A"]⟩

/-- A driver requesting cpu 1, mem 2 with five executors of cpu 1, mem 1. -/
def driverPod5 : Pod :=
  ⟨"default", "spark-driver", [("spark-role", "driver"), ("driver-cpu", "1"),
    ("driver-mem", "2"), ("executors", "5"), ("exec-cpu", "1"), ("exec-mem", "1")]⟩

/-- A driver requesting cpu 1, mem 1 with three executors of cpu 1, mem 1. -/
def driverPod3 : Pod :=
  ⟨"default", "spark-driver", [("spark-role", "driver"), ("driver-cpu", "1"),
    ("driver-mem", "1"), ("executors", "3"), ("exec-cpu", "1"), ("exec-mem", "1")]⟩

/-- An executor requesting cpu 2, mem 2. -/
def executorPod2 : Pod :=
  ⟨"default", "spark-exec-1", [("spark-role", "executor"), ("exec-cpu", "2"),
    ("exec-mem", "2")]⟩

/-- The cache that a failed executor commit leaves: node A (cpu 1, mem 1) and the entry
(cpu -2, mem -2, cost 100) under the empty key. -/
def heapAfterFailure : Heap := ⟨[[("A", ⟨1, 1, 0⟩), ("", ⟨-2, -2, 100⟩)]]⟩

/-- A lister whose six first calls return 1, 1, 2, 2, 3, 3 nodes. -/
def growingLister (i : Nat) : List String := List.replicate ([1, 1, 2, 2, 3, 3].getD i 0) "node"

/-! ## Machine integers -/

theorem wrap64_of_inRange (x : Int) (hx : inRange x) : wrap64 x = x := by
  unfold inRange minInt maxInt at hx
  unfold wrap64
  omega

theorem wrap64_inRange (x : Int) : inRange (wrap64 x) := by
  unfold inRange minInt maxInt wrap64
  omega

theorem isub_of_inRange (a b : Int) (hx : inRange (a - b)) : isub a b = a - b :=
  wrap64_of_inRange _ hx

theorem parseInt_inRange (s : List Char) : inRange (parseInt s) := by
  unfold parseInt
  split
  · unfold inRange minInt maxInt; omega
  · simp only
    split
    · unfold inRange minInt maxInt; omega
    · split <;> (unfold inRange minInt maxInt; omega)
    · split
      · unfold inRange minInt maxInt; omega
      · split
        · unfold inRange minInt maxInt; omega
        · rename_i un h1 h2
          split
          · rename_i hneg
            simp only [hneg, Bool.true_and, decide_eq_true_eq, not_lt] at h2
            unfold inRange minInt maxInt
            omega
          · rename_i hneg
            simp only [hneg, Bool.not_false, Bool.true_and, decide_eq_true_eq, not_le,
              Bool.not_eq_true] at h1
            unfold inRange minInt maxInt
            omega

theorem toInt_inRange (value : String) : inRange (toInt value) :=
  parseInt_inRange _

/-- Values of `toInt` on well-formed, malformed and out-of-range strings; a digit that
overflows is reported before a later malformed character is reached. -/
theorem toInt_values :
    toInt "12" = 12 ∧ toInt "-12" = -12 ∧ toInt "+12" = 12 ∧ toInt "" = 0 ∧ toInt "-" = 0 ∧
    toInt "12x" = 0 ∧ toInt "1_000" = 0 ∧
    toInt "9223372036854775807" = 9223372036854775807 ∧
    toInt "9223372036854775808" = 9223372036854775807 ∧
    toInt "-9223372036854775808" = -9223372036854775808 ∧
    toInt "-9223372036854775809" = -9223372036854775808 ∧
    toInt "9999999999999999999x" = 0 ∧
    toInt "99999999999999999999x" = 9223372036854775807 := by
  decide

/-! ## Maps and heap: basic facts -/

theorem mapGet_mapSet_same (m : ResourceMap) (key : String) (v : resources) :
    mapGet (mapSet m key v) key = v := by
  induction m with
  | nil => simp [mapSet, mapGet]
  | cons e rest ih =>
    obtain ⟨k, w⟩ := e
    by_cases hk : k = key
    · simp [mapSet, mapGet, hk]
    · simp [mapSet, mapGet, hk, ih]

theorem mapGet_mapSet_other (m : ResourceMap) (key key2 : String) (v : resources)
    (hne : key2 ≠ key) : mapGet (mapSet m key v) key2 = mapGet m key2 := by
  induction m with
  | nil =>
    have : ¬ key = key2 := fun e => hne e.symm
    simp [mapSet, mapGet, this]
  | cons e rest ih =>
    obtain ⟨k, w⟩ := e
    by_cases hk : k = key
    · subst hk
      have h2 : ¬ k = key2 := fun e => hne e.symm
      simp [mapSet, mapGet, h2]
    · by_cases hk2 : k = key2
      · subst hk2
        simp [mapSet, mapGet, hk]
      · simp [mapSet, mapGet, hk, hk2, ih]

theorem mapKeys_mapSet_of_mem (m : ResourceMap) (key : String) (v : resources)
    (hmem : key ∈ mapKeys m) : mapKeys (mapSet m key v) = mapKeys m := by
  induction m with
  | nil => simp [mapKeys] at hmem
  | cons e rest ih =>
    obtain ⟨k, w⟩ := e
    by_cases hk : k = key
    · simp [mapSet, mapKeys, hk]
    · have hmem2 : key ∈ mapKeys rest := by
        simp only [mapKeys, List.map_cons, List.mem_cons] at hmem
        rcases hmem with h1 | h1
        · exact absurd h1.symm hk
        · exact h1
      have := ih hmem2
      simp only [mapKeys] at this
      simp [mapSet, mapKeys, hk, this]

theorem mapKeys_mapSet_of_not_mem (m : ResourceMap) (key : String) (v : resources)
    (hmem : key ∉ mapKeys m) : mapKeys (mapSet m key v) = mapKeys m ++ [key] := by
  induction m with
  | nil => simp [mapKeys, mapSet]
  | cons e rest ih =>
    obtain ⟨k, w⟩ := e
    simp only [mapKeys, List.map_cons, List.mem_cons, not_or] at hmem
    have hk : ¬ k = key := fun e => hmem.1 e.symm
    have := ih hmem.2
    simp only [mapKeys] at this
    simp [mapSet, mapKeys, hk, this]

theorem mem_mapKeys_mapSet (m : ResourceMap) (key : String) (v : resources) :
    key ∈ mapKeys (mapSet m key v) := by
  by_cases hmem : key ∈ mapKeys m
  · rw [mapKeys_mapSet_of_mem m key v hmem]; exact hmem
  · rw [mapKeys_mapSet_of_not_mem m key v hmem]; simp

theorem mapSet_mapGet_self (m : ResourceMap) (key : String) (hmem : key ∈ mapKeys m) :
    mapSet m key (mapGet m key) = m := by
  induction m with
  | nil => simp [mapKeys] at hmem
  | cons e rest ih =>
    obtain ⟨k, w⟩ := e
    by_cases hk : k = key
    · simp [mapSet, mapGet, hk]
    · have hmem2 : key ∈ mapKeys rest := by
        simp only [mapKeys, List.map_cons, List.mem_cons] at hmem
        rcases hmem with h1 | h1
        · exact absurd h1.symm hk
        · exact h1
      simp [mapSet, mapGet, hk, ih hmem2]

theorem Heap.read_write_same (h : Heap) (r : Nat) (m : ResourceMap)
    (hr : r < h.maps.length) : (h.write r m).read r = m := by
  simp [Heap.read, Heap.write, List.getD, hr]

theorem Heap.read_write_other (h : Heap) (r r2 : Nat) (m : ResourceMap) (hne : r2 ≠ r) :
    (h.write r m).read r2 = h.read r2 := by
  simp [Heap.read, Heap.write, List.getD, List.getElem?_set_ne (Ne.symm hne)]

theorem Heap.length_write (h : Heap) (r : Nat) (m : ResourceMap) :
    (h.write r m).maps.length = h.maps.length := by
  simp [Heap.write]

/-! ## Loops: what they compute -/

theorem mapGet_of_not_mem (m : ResourceMap) (key : String) (hmem : key ∉ mapKeys m) :
    mapGet m key = ⟨0, 0, 0⟩ := by
  induction m with
  | nil => simp [mapGet]
  | cons e rest ih =>
    obtain ⟨k, w⟩ := e
    simp only [mapKeys, List.map_cons, List.mem_cons, not_or] at hmem
    have hk : ¬ k = key := fun e => hmem.1 e.symm
    simp only [mapGet, hk, if_false]
    exact ih hmem.2

theorem mem_iff_mapGet (m : ResourceMap) (hnodup : (mapKeys m).Nodup) (key : String)
    (v : resources) : (key, v) ∈ m ↔ key ∈ mapKeys m ∧ mapGet m key = v := by
  induction m with
  | nil => simp [mapKeys]
  | cons e rest ih =>
    obtain ⟨k, w⟩ := e
    simp only [mapKeys, List.map_cons, List.nodup_cons] at hnodup
    have ih2 := ih hnodup.2
    by_cases hk : k = key
    · subst hk
      simp only [List.mem_cons, Prod.mk.injEq, true_and, mapKeys, List.map_cons, mapGet,
        if_true, true_or]
      constructor
      · rintro (h1 | h1)
        · exact h1.symm
        · exact absurd (List.mem_map_of_mem Prod.fst h1) hnodup.1
      · intro h1
        exact Or.inl h1.symm
    · have hk2 : ¬ key = k := fun e => hk e.symm
      simp only [List.mem_cons, Prod.mk.injEq, hk2, false_and, false_or, mapKeys,
        List.map_cons, mapGet, hk, if_false]
      simpa [mapKeys] using ih2

theorem subtractPodLoop_cases (h : Heap) (c : nodeCache) (cpu mem : Int) (order : List String) :
    (subtractPodLoop h c cpu mem order = (false, h) ∧
      ∀ key ∈ order, ¬ hasRoom (h.read c.cache) cpu mem key) ∨
    ∃ key ∈ order, hasRoom (h.read c.cache) cpu mem key ∧
      subtractPodLoop h c cpu mem order = (true, h.write c.cache (mapSet (h.read c.cache) key
        ⟨isub (mapGet (h.read c.cache) key).cpu cpu,
          isub (mapGet (h.read c.cache) key).memory mem,
          (mapGet (h.read c.cache) key).cost⟩)) := by
  induction order with
  | nil => left; simp [subtractPodLoop]
  | cons key rest ih =>
    by_cases hroom : hasRoom (h.read c.cache) cpu mem key
    · right
      refine ⟨key, List.mem_cons_self _ _, hroom, ?_⟩
      have hroom2 := hroom
      unfold hasRoom at hroom2
      simp only [subtractPodLoop, hroom2, and_self, if_true]
    · have hroom2 := hroom
      unfold hasRoom at hroom2
      have hstep : subtractPodLoop h c cpu mem (key :: rest) = subtractPodLoop h c cpu mem rest := by
        simp only [subtractPodLoop, hroom2, if_false]
      rcases ih with ⟨h1, h2⟩ | ⟨k2, hk2, hr2, h2⟩
      · left
        refine ⟨hstep.trans h1, ?_⟩
        intro k hk
        rcases List.mem_cons.mp hk with rfl | hk
        · exact hroom
        · exact h2 k hk
      · right
        exact ⟨k2, List.mem_cons_of_mem _ hk2, hr2, hstep.trans h2⟩

theorem subtractPod_length (h : Heap) (c : nodeCache) (order : List String) (cpu mem : Int) :
    (subtractPod h c order cpu mem).2.maps.length = h.maps.length := by
  unfold subtractPod
  rcases subtractPodLoop_cases h c cpu mem order with ⟨h1, _⟩ | ⟨k, _, _, h1⟩
  · rw [h1]
  · rw [h1]; exact Heap.length_write _ _ _

theorem subtractPod_read_other (h : Heap) (c : nodeCache) (order : List String) (cpu mem : Int)
    (r : Nat) (hne : r ≠ c.cache) :
    (subtractPod h c order cpu mem).2.read r = h.read r := by
  unfold subtractPod
  rcases subtractPodLoop_cases h c cpu mem order with ⟨h1, _⟩ | ⟨k, _, _, h1⟩
  · rw [h1]
  · rw [h1]; exact Heap.read_write_other _ _ _ _ hne

theorem multiplePodsFitLoop_read_other (w : nodeCache) (orders : Nat → List String)
    (cpu mem : Int) (r : Nat) (hne : r ≠ w.cache) (n : Nat) :
    ∀ (i : Nat) (h : Heap),
      (multiplePodsFitLoop w orders cpu mem n i h).2.read r = h.read r := by
  induction n with
  | zero => intro i h; simp [multiplePodsFitLoop]
  | succ n ih =>
    intro i h
    simp only [multiplePodsFitLoop]
    split
    · rw [ih]; exact subtractPod_read_other h w (orders i) cpu mem r hne
    · exact subtractPod_read_other h w (orders i) cpu mem r hne

theorem cloneLoop_spec (c cl : nodeCache) (hne : c.cache ≠ cl.cache) (order : List String) :
    ∀ (h : Heap), cl.cache < h.maps.length →
      (cloneLoop c cl order h).read c.cache = h.read c.cache ∧
      (cloneLoop c cl order h).read cl.cache =
        cloneMap (h.read c.cache) order (h.read cl.cache) ∧
      (cloneLoop c cl order h).maps.length = h.maps.length ∧
      ∀ r, r ≠ cl.cache → (cloneLoop c cl order h).read r = h.read r := by
  induction order with
  | nil => intro h _; simp [cloneLoop, cloneMap]
  | cons key rest ih =>
    intro h hcl
    simp only [cloneLoop, cloneMap]
    have hlen := Heap.length_write h cl.cache (mapSet (h.read cl.cache) key
      (mapGet (h.read c.cache) key))
    obtain ⟨h1, h2, h3, h4⟩ := ih (h.write cl.cache (mapSet (h.read cl.cache) key
      (mapGet (h.read c.cache) key))) (by rw [hlen]; exact hcl)
    rw [Heap.read_write_other _ _ _ _ hne] at h1 h2
    rw [Heap.read_write_same _ _ _ hcl] at h2
    refine ⟨h1, h2, h3.trans hlen, ?_⟩
    intro r hr
    rw [h4 r hr, Heap.read_write_other _ _ _ _ hr]

theorem Heap.read_alloc_old (h : Heap) (r : Nat) (hr : r < h.maps.length) :
    h.alloc.2.read r = h.read r := by
  simp [Heap.alloc, Heap.read, List.getD, List.getElem?_append_left hr]

theorem Heap.read_alloc_new (h : Heap) : h.alloc.2.read h.alloc.1 = [] := by
  simp [Heap.alloc, Heap.read, List.getD]

theorem clone_spec (h : Heap) (c : nodeCache) (order : List String)
    (hvalid : c.cache < h.maps.length) :
    (clone h c order).1.cache = h.maps.length ∧
    (clone h c order).2.maps.length = h.maps.length + 1 ∧
    (clone h c order).2.read c.cache = h.read c.cache ∧
    (clone h c order).2.read (clone h c order).1.cache = cloneMap (h.read c.cache) order [] := by
  have hne : c.cache ≠ (⟨h.alloc.1⟩ : nodeCache).cache := by
    simp only [Heap.alloc]; omega
  have hcl : (⟨h.alloc.1⟩ : nodeCache).cache < h.alloc.2.maps.length := by
    simp [Heap.alloc]
  obtain ⟨h1, h2, h3, _⟩ := cloneLoop_spec c ⟨h.alloc.1⟩ hne order h.alloc.2 hcl
  rw [Heap.read_alloc_old h c.cache hvalid] at h1 h2
  have hnew : h.alloc.2.read (⟨h.alloc.1⟩ : nodeCache).cache = [] := Heap.read_alloc_new h
  rw [hnew] at h2
  refine ⟨rfl, ?_, h1, h2⟩
  simp only [clone]
  rw [h3]
  simp [Heap.alloc]

theorem mapSet_of_not_mem (m : ResourceMap) (key : String) (v : resources)
    (hmem : key ∉ mapKeys m) : mapSet m key v = m ++ [(key, v)] := by
  induction m with
  | nil => simp [mapSet]
  | cons e rest ih =>
    obtain ⟨k, w⟩ := e
    simp only [mapKeys, List.map_cons, List.mem_cons, not_or] at hmem
    have hk : ¬ k = key := fun e => hmem.1 e.symm
    simp only [mapSet, hk, if_false, List.cons_append]
    rw [ih hmem.2]

theorem cloneMap_of_nodup (src : ResourceMap) (order : List String) :
    ∀ (acc : ResourceMap), order.Nodup → (∀ key ∈ order, key ∉ mapKeys acc) →
      cloneMap src order acc = acc ++ order.map (fun key => (key, mapGet src key)) := by
  induction order with
  | nil => intro acc _ _; simp [cloneMap]
  | cons key rest ih =>
    intro acc hnodup hdisj
    rw [List.nodup_cons] at hnodup
    simp only [cloneMap]
    rw [mapSet_of_not_mem acc key _ (hdisj key (List.mem_cons_self _ _))]
    rw [ih _ hnodup.2]
    · simp
    · intro k hk
      simp only [mapKeys, List.map_append, List.map_cons, List.map_nil, List.mem_append,
        List.mem_singleton, not_or]
      refine ⟨hdisj k (List.mem_cons_of_mem _ hk), ?_⟩
      intro e
      exact hnodup.1 (e ▸ hk)

theorem map_mapGet_self (m : ResourceMap) (hnodup : (mapKeys m).Nodup) :
    (mapKeys m).map (fun key => (key, mapGet m key)) = m := by
  induction m with
  | nil => simp [mapKeys]
  | cons e rest ih =>
    obtain ⟨k, w⟩ := e
    simp only [mapKeys, List.map_cons, List.nodup_cons] at hnodup
    have ih2 := ih hnodup.2
    simp only [mapKeys, List.map_cons, mapGet, if_true, List.cons.injEq, true_and, List.map_map]
    simp only [mapKeys, List.map_map] at ih2
    conv_rhs => rw [← ih2]
    apply List.map_congr_left
    intro e he
    have hek : ¬ k = e.1 := by
      intro heq
      exact hnodup.1 (heq ▸ List.mem_map_of_mem Prod.fst he)
    simp [mapGet, hek]

/-- With distinct keys and a visiting order that is a permutation of the keys, the
object built by `clone` has exactly the entries of the source, in the visiting order. -/
theorem cloneMap_perm (src : ResourceMap) (order : List String)
    (hnodup : (mapKeys src).Nodup) (hord : order.Perm (mapKeys src)) :
    cloneMap src order [] = order.map (fun key => (key, mapGet src key)) ∧
    (cloneMap src order []).Perm src ∧
    mapKeys (cloneMap src order []) = order ∧
    ∀ key, mapGet (cloneMap src order []) key = mapGet src key := by
  have hon : order.Nodup := hord.nodup_iff.mpr hnodup
  have h1 : cloneMap src order [] = order.map (fun key => (key, mapGet src key)) := by
    rw [cloneMap_of_nodup src order [] hon (by simp [mapKeys])]; simp
  have h2 : (cloneMap src order []).Perm src := by
    rw [h1]
    have := hord.map (fun key => (key, mapGet src key))
    rw [map_mapGet_self src hnodup] at this
    exact this
  have h3 : mapKeys (cloneMap src order []) = order := by
    rw [h1]; simp [mapKeys, Function.comp_def]
  refine ⟨h1, h2, h3, ?_⟩
  intro key
  by_cases hk : key ∈ mapKeys src
  · have hk2 : key ∈ mapKeys (cloneMap src order []) := by rw [h3]; exact hord.mem_iff.mpr hk
    have hcn : (mapKeys (cloneMap src order [])).Nodup := by rw [h3]; exact hon
    have hmem : (key, mapGet src key) ∈ cloneMap src order [] :=
      h2.mem_iff.mpr ((mem_iff_mapGet src hnodup key _).mpr ⟨hk, rfl⟩)
    exact ((mem_iff_mapGet _ hcn key _).mp hmem).2
  · have hk2 : key ∉ mapKeys (cloneMap src order []) := by
      rw [h3]; exact fun hmem => hk (hord.mem_iff.mp hmem)
    rw [mapGet_of_not_mem _ _ hk, mapGet_of_not_mem _ _ hk2]

/-! ## Distributions of a group over the nodes -/

theorem sum_map_update (l : List String) (k : String → Nat) (a : String) (v : Nat)
    (hnodup : l.Nodup) (ha : a ∈ l) :
    (l.map (Function.update k a v)).sum + k a = (l.map k).sum + v := by
  induction l with
  | nil => simp at ha
  | cons b rest ih =>
    rw [List.nodup_cons] at hnodup
    by_cases hb : b = a
    · subst hb
      have hrest : rest.map (Function.update k b v) = rest.map k := by
        apply List.map_congr_left
        intro x hx
        have : x ≠ b := fun e => hnodup.1 (e ▸ hx)
        simp [Function.update, this]
      simp only [List.map_cons, List.sum_cons, Function.update_same, hrest]
      omega
    · have ha2 : a ∈ rest := by
        rcases List.mem_cons.mp ha with h1 | h1
        · exact absurd h1.symm hb
        · exact h1
      have := ih hnodup.2 ha2
      simp only [List.map_cons, List.sum_cons, Function.update_noteq hb]
      omega

theorem exists_pos_of_sum_pos (l : List String) (k : String → Nat)
    (hpos : 0 < (l.map k).sum) : ∃ a ∈ l, 0 < k a := by
  induction l with
  | nil => simp at hpos
  | cons b rest ih =>
    simp only [List.map_cons, List.sum_cons] at hpos
    by_cases hb : 0 < k b
    · exact ⟨b, List.mem_cons_self _ _, hb⟩
    · obtain ⟨a, ha, hka⟩ := ih (by omega)
      exact ⟨a, List.mem_cons_of_mem _ ha, hka⟩

/-- A node that takes at least one unit of a distribution has room for one unit. -/
theorem Distribution.roomExact_of_pos {m : ResourceMap} {cpu mem : Int} {n : Nat}
    {k : String → Nat} (hd : Distribution m cpu mem n k) (hcpu : 0 ≤ cpu) (hmem : 0 ≤ mem)
    {key : String} (hkey : key ∈ mapKeys m) (hpos : 0 < k key) : roomExact m cpu mem key := by
  obtain ⟨h1, h2⟩ := hd.2 key hkey hpos
  have hk1 : (1 : Int) ≤ (k key : Int) := by exact_mod_cast hpos
  have e1 : cpu ≤ (k key : Int) * cpu := by nlinarith
  have e2 : mem ≤ (k key : Int) * mem := by nlinarith
  unfold roomExact
  constructor <;> omega

/-- Placing one unit on a node with room: distributions of `n` units over the reduced
map correspond to distributions of `n + 1` units over the map before. -/
theorem distribution_step (m : ResourceMap) (cpu mem : Int) (n : Nat) (key0 : String)
    (hnodup : (mapKeys m).Nodup) (hcpu : 0 ≤ cpu) (hmem : 0 ≤ mem)
    (hkey0 : key0 ∈ mapKeys m) (hroom : roomExact m cpu mem key0) :
    (∃ k, Distribution (mapSet m key0 ⟨(mapGet m key0).cpu - cpu,
        (mapGet m key0).memory - mem, (mapGet m key0).cost⟩) cpu mem n k) ↔
    ∃ k, Distribution m cpu mem (n + 1) k := by
  have hkeys := mapKeys_mapSet_of_mem m key0 ⟨(mapGet m key0).cpu - cpu,
        (mapGet m key0).memory - mem, (mapGet m key0).cost⟩ hkey0
  unfold roomExact at hroom
  constructor
  · rintro ⟨k, hsum, hcond⟩
    rw [hkeys] at hsum hcond
    refine ⟨Function.update k key0 (k key0 + 1), ?_, ?_⟩
    · have := sum_map_update (mapKeys m) k key0 (k key0 + 1) hnodup hkey0
      omega
    · intro key hkey hpos
      by_cases hk : key = key0
      · subst hk
        simp only [Function.update_same, Nat.cast_add, Nat.cast_one]
        by_cases hz : 0 < k key
        · have := hcond key hkey hz
          rw [mapGet_mapSet_same] at this
          simp only at this
          constructor <;> nlinarith [this.1, this.2]
        · have hz2 : k key = 0 := by omega
          rw [hz2]
          simp only [Nat.cast_zero, zero_add, one_mul]
          exact hroom
      · rw [Function.update_noteq hk] at hpos ⊢
        have := hcond key hkey hpos
        rw [mapGet_mapSet_other _ _ _ _ hk] at this
        exact this
  · rintro ⟨k, hsum, hcond⟩
    by_cases hz : 0 < k key0
    · refine ⟨Function.update k key0 (k key0 - 1), ?_, ?_⟩
      · rw [hkeys]
        have := sum_map_update (mapKeys m) k key0 (k key0 - 1) hnodup hkey0
        omega
      · rw [hkeys]
        intro key hkey hpos
        by_cases hk : key = key0
        · subst hk
          rw [Function.update_same] at hpos ⊢
          rw [mapGet_mapSet_same]
          have := hcond key hkey hz
          have hc : ((k key - 1 : Nat) : Int) = (k key : Int) - 1 := by omega
          rw [hc]
          simp only
          constructor <;> nlinarith [this.1, this.2]
        · rw [Function.update_noteq hk] at hpos ⊢
          rw [mapGet_mapSet_other _ _ _ _ hk]
          exact hcond key hkey hpos
    · obtain ⟨key1, hkey1, hpos1⟩ := exists_pos_of_sum_pos (mapKeys m) k (by omega)
      have hne : key1 ≠ key0 := fun e => hz (e ▸ hpos1)
      refine ⟨Function.update k key1 (k key1 - 1), ?_, ?_⟩
      · rw [hkeys]
        have := sum_map_update (mapKeys m) k key1 (k key1 - 1) hnodup hkey1
        omega
      · rw [hkeys]
        intro key hkey hpos
        by_cases hk : key = key1
        · subst hk
          rw [Function.update_same] at hpos ⊢
          rw [mapGet_mapSet_other _ _ _ _ hne]
          have := hcond key hkey hpos1
          have hc : ((k key - 1 : Nat) : Int) = (k key : Int) - 1 := by omega
          rw [hc]
          constructor <;> nlinarith [this.1, this.2]
        · rw [Function.update_noteq hk] at hpos ⊢
          have hk0 : key ≠ key0 := fun e => hz (e ▸ hpos)
          rw [mapGet_mapSet_other _ _ _ _ hk0]
          exact hcond key hkey hpos

theorem hasRoom_iff_roomExact (m : ResourceMap) (cpu mem : Int) (key : String)
    (hr : inRange ((mapGet m key).cpu - cpu) ∧ inRange ((mapGet m key).memory - mem)) :
    hasRoom m cpu mem key ↔ roomExact m cpu mem key := by
  unfold hasRoom roomExact
  rw [isub_of_inRange _ _ hr.1, isub_of_inRange _ _ hr.2]

/-- Reducing a node with room by a non-negative request keeps every later subtraction of
that request within the 64-bit range. -/
theorem NoOverflow.step {m : ResourceMap} {cpu mem : Int} (hno : NoOverflow m cpu mem)
    (hcpu : 0 ≤ cpu) (hmem : 0 ≤ mem) (hcpu2 : cpu ≤ maxInt) (hmem2 : mem ≤ maxInt)
    {key0 : String} (hkey0 : key0 ∈ mapKeys m) (hroom : roomExact m cpu mem key0) :
    NoOverflow (mapSet m key0 ⟨(mapGet m key0).cpu - cpu, (mapGet m key0).memory - mem,
      (mapGet m key0).cost⟩) cpu mem := by
  intro key hkey
  rw [mapKeys_mapSet_of_mem _ _ _ hkey0] at hkey
  by_cases hk : key = key0
  · subst hk
    rw [mapGet_mapSet_same]
    have h0 := hno key hkey
    unfold roomExact at hroom
    unfold inRange minInt maxInt at h0 ⊢
    unfold maxInt at hcpu2 hmem2
    simp only
    constructor <;> constructor <;> omega
  · rw [mapGet_mapSet_other _ _ _ _ hk]
    exact hno key hkey

theorem multiplePodsFitLoop_iff (w : nodeCache) (orders : Nat → List String) (cpu mem : Int)
    (hcpu : 0 ≤ cpu) (hmem : 0 ≤ mem) (hcpu2 : cpu ≤ maxInt) (hmem2 : mem ≤ maxInt) (n : Nat) :
    ∀ (i : Nat) (h : Heap), w.cache < h.maps.length → (mapKeys (h.read w.cache)).Nodup →
      (∀ j key, key ∈ orders j ↔ key ∈ mapKeys (h.read w.cache)) →
      NoOverflow (h.read w.cache) cpu mem →
      ((multiplePodsFitLoop w orders cpu mem n i h).1 = true ↔
        ∃ k, Distribution (h.read w.cache) cpu mem n k) := by
  induction n with
  | zero =>
    intro i h _ _ _ _
    simp only [multiplePodsFitLoop, true_iff]
    exact ⟨fun _ => 0, by simp, fun key _ hpos => absurd hpos (lt_irrefl 0)⟩
  | succ n ih =>
    intro i h hvalid hnodup hord hno
    simp only [multiplePodsFitLoop, subtractPod]
    rcases subtractPodLoop_cases h w cpu mem (orders i) with ⟨h1, h2⟩ | ⟨key0, hk0, hroom, h1⟩
    · rw [h1]
      simp only [Bool.false_eq_true, if_false, false_iff]
      rintro ⟨k, hd⟩
      obtain ⟨key1, hkey1, hpos1⟩ :=
        exists_pos_of_sum_pos (mapKeys (h.read w.cache)) k (by rw [hd.1]; omega)
      exact h2 key1 ((hord i key1).mpr hkey1)
        ((hasRoom_iff_roomExact _ _ _ _ (hno key1 hkey1)).mpr
          (hd.roomExact_of_pos hcpu hmem hkey1 hpos1))
    · have hkey0 : key0 ∈ mapKeys (h.read w.cache) := (hord i key0).mp hk0
      have hr0 := hno key0 hkey0
      have hroomZ : roomExact (h.read w.cache) cpu mem key0 :=
        (hasRoom_iff_roomExact _ _ _ _ hr0).mp hroom
      rw [isub_of_inRange _ _ hr0.1, isub_of_inRange _ _ hr0.2] at h1
      rw [h1]
      simp only [if_true]
      have hkeys := mapKeys_mapSet_of_mem (h.read w.cache) key0
        ⟨(mapGet (h.read w.cache) key0).cpu - cpu, (mapGet (h.read w.cache) key0).memory - mem,
          (mapGet (h.read w.cache) key0).cost⟩ hkey0
      rw [ih (i + 1) _ (by rw [Heap.length_write]; exact hvalid)
        (by rw [Heap.read_write_same _ _ _ hvalid, hkeys]; exact hnodup)
        (by rw [Heap.read_write_same _ _ _ hvalid, hkeys]; exact hord)
        (by
          rw [Heap.read_write_same _ _ _ hvalid]
          exact hno.step hcpu hmem hcpu2 hmem2 hkey0 hroomZ)]
      rw [Heap.read_write_same _ _ _ hvalid]
      exact distribution_step (h.read w.cache) cpu mem n key0 hnodup hcpu hmem hkey0 hroomZ

theorem Distribution.congr {m m2 : ResourceMap} {cpu mem : Int} {n : Nat} {k : String → Nat}
    (hd : Distribution m cpu mem n k) (hkeys : (mapKeys m2).Perm (mapKeys m))
    (hget : ∀ key, mapGet m2 key = mapGet m key) : Distribution m2 cpu mem n k := by
  refine ⟨?_, ?_⟩
  · rw [← hd.1]
    exact (hkeys.map k).sum_eq
  · intro key hkey hpos
    rw [hget key]
    exact hd.2 key (hkeys.mem_iff.mp hkey) hpos

theorem podFitsLoop_iff (m : ResourceMap) (podCPU podMEM : String) (order : List String) :
    podFitsLoop m podCPU podMEM order = true ↔
      ∃ key ∈ order, hasRoom m (toInt podCPU) (toInt podMEM) key := by
  induction order with
  | nil => simp [podFitsLoop]
  | cons key rest ih =>
    by_cases hroom : hasRoom m (toInt podCPU) (toInt podMEM) key
    · have hroom2 := hroom
      unfold hasRoom at hroom2
      simp only [podFitsLoop, hroom2, and_self, if_true, true_iff]
      exact ⟨key, List.mem_cons_self _ _, hroom⟩
    · have hroom2 := hroom
      unfold hasRoom at hroom2
      simp only [podFitsLoop, hroom2, if_false]
      rw [ih]
      constructor
      · rintro ⟨k, hk, hr⟩
        exact ⟨k, List.mem_cons_of_mem _ hk, hr⟩
      · rintro ⟨k, hk, hr⟩
        rcases List.mem_cons.mp hk with rfl | hk
        · exact absurd hr hroom
        · exact ⟨k, hk, hr⟩

theorem schedulePodLoop_cases (m : ResourceMap) (cpu mem : String) (order : List String) :
    ∀ (acc : String × Int),
      schedulePodLoop m cpu mem order acc = acc ∨
      ((schedulePodLoop m cpu mem order acc).1 ∈ order ∧
        (schedulePodLoop m cpu mem order acc).2 =
          (mapGet m (schedulePodLoop m cpu mem order acc).1).cost ∧
        hasRoom m (toInt cpu) (toInt mem) (schedulePodLoop m cpu mem order acc).1 ∧
        (schedulePodLoop m cpu mem order acc).2 < acc.2) := by
  induction order with
  | nil => intro acc; left; simp [schedulePodLoop]
  | cons key rest ih =>
    intro acc
    by_cases hc : (mapGet m key).cost < acc.2 ∧
        (isub (mapGet m key).cpu (toInt cpu) > 0 ∧ isub (mapGet m key).memory (toInt mem) > 0)
    · have hstep : schedulePodLoop m cpu mem (key :: rest) acc =
          schedulePodLoop m cpu mem rest (key, (mapGet m key).cost) := by
        simp only [schedulePodLoop, hc, and_self, if_true]
      rw [hstep]
      right
      rcases ih (key, (mapGet m key).cost) with h1 | ⟨h1, h2, h3, h4⟩
      · rw [h1]
        exact ⟨List.mem_cons_self _ _, rfl, hc.2, hc.1⟩
      · exact ⟨List.mem_cons_of_mem _ h1, h2, h3, lt_trans h4 hc.1⟩
    · have hstep : schedulePodLoop m cpu mem (key :: rest) acc =
          schedulePodLoop m cpu mem rest acc := by
        simp only [schedulePodLoop, hc, if_false]
      rw [hstep]
      rcases ih acc with h1 | ⟨h1, h2, h3, h4⟩
      · left; exact h1
      · right; exact ⟨List.mem_cons_of_mem _ h1, h2, h3, h4⟩

theorem schedulePodLoop_lt (m : ResourceMap) (cpu mem : String) (order : List String) :
    ∀ (acc : String × Int),
      (∃ key ∈ order, (mapGet m key).cost < acc.2 ∧ hasRoom m (toInt cpu) (toInt mem) key) →
      (schedulePodLoop m cpu mem order acc).2 < acc.2 := by
  induction order with
  | nil => intro acc ⟨key, hkey, _⟩; simp at hkey
  | cons key rest ih =>
    intro acc ⟨key0, hkey0, hcost0, hroom0⟩
    by_cases hc : (mapGet m key).cost < acc.2 ∧
        (isub (mapGet m key).cpu (toInt cpu) > 0 ∧ isub (mapGet m key).memory (toInt mem) > 0)
    · have hstep : schedulePodLoop m cpu mem (key :: rest) acc =
          schedulePodLoop m cpu mem rest (key, (mapGet m key).cost) := by
        simp only [schedulePodLoop, hc, and_self, if_true]
      rw [hstep]
      rcases schedulePodLoop_cases m cpu mem rest (key, (mapGet m key).cost) with
        h1 | ⟨_, _, _, h4⟩
      · rw [h1]; exact hc.1
      · exact lt_trans h4 hc.1
    · have hstep : schedulePodLoop m cpu mem (key :: rest) acc =
          schedulePodLoop m cpu mem rest acc := by
        simp only [schedulePodLoop, hc, if_false]
      rw [hstep]
      rcases List.mem_cons.mp hkey0 with rfl | hmem
      · exact absurd ⟨hcost0, hroom0⟩ hc
      · exact ih acc ⟨key0, hmem, hcost0, hroom0⟩

theorem multiplePodsFit_read_self (h : Heap) (c : nodeCache) (cloneOrder : List String)
    (orders : Nat → List String) (podCount podCPU podMEM : String)
    (hvalid : c.cache < h.maps.length) :
    (multiplePodsFit h c cloneOrder orders podCount podCPU podMEM).2.read c.cache =
      h.read c.cache := by
  obtain ⟨hc1, _, hc3, _⟩ := clone_spec h c cloneOrder hvalid
  have hne : c.cache ≠ (clone h c cloneOrder).1.cache := by rw [hc1]; omega
  simp only [multiplePodsFit]
  rw [multiplePodsFitLoop_read_other _ orders _ _ c.cache hne]
  exact hc3

theorem chooseNode_driver_error (h : Heap) (cache : nodeCache) (o : RangeOrders) (pod : Pod)
    (hrole : label pod POD_ROLE_LABEL_KEY = DRIVER_POD_LABEL_VALUE) :
    ((chooseNode h cache o pod).1.2 ≠ none ↔
      ((podFits h cache o.fits (label pod DRIVER_CPU_LABEL_KEY)
          (label pod DRIVER_MEM_LABEL_KEY)).1 = false ∨
        (multiplePodsFit h cache o.clone o.sub (label pod DRIVER_EXEC_COUNT_LABEL_KEY)
          (label pod DRIVER_EXEC_CPU_LABEL_KEY) (label pod DRIVER_EXEC_MEM_LABEL_KEY)).1 = false)) ∧
    ((chooseNode h cache o pod).1.2 ≠ none →
      ((chooseNode h cache o pod).2 = h ∨
        (chooseNode h cache o pod).2 =
          (multiplePodsFit h cache o.clone o.sub (label pod DRIVER_EXEC_COUNT_LABEL_KEY)
            (label pod DRIVER_EXEC_CPU_LABEL_KEY) (label pod DRIVER_EXEC_MEM_LABEL_KEY)).2)) := by
  simp only [chooseNode, hrole, if_true, driverFits, executorsFit]
  by_cases hd : (podFits h cache o.fits (label pod DRIVER_CPU_LABEL_KEY)
      (label pod DRIVER_MEM_LABEL_KEY)).1 = true
  · have hd2 : (podFits h cache o.fits (label pod DRIVER_CPU_LABEL_KEY)
      (label pod DRIVER_MEM_LABEL_KEY)).2 = h := rfl
    by_cases he : (multiplePodsFit h cache o.clone o.sub (label pod DRIVER_EXEC_COUNT_LABEL_KEY)
        (label pod DRIVER_EXEC_CPU_LABEL_KEY) (label pod DRIVER_EXEC_MEM_LABEL_KEY)).1 = true
    · simp [hd, hd2, he]
    · simp [hd, hd2, he]
  · have hd2 : (podFits h cache o.fits (label pod DRIVER_CPU_LABEL_KEY)
      (label pod DRIVER_MEM_LABEL_KEY)).2 = h := rfl
    simp [hd, hd2]

theorem schedulePodLoop_le (m : ResourceMap) (cpu mem : String) (order : List String) :
    ∀ (acc : String × Int),
      (schedulePodLoop m cpu mem order acc).2 ≤ acc.2 ∧
      ∀ key ∈ order, hasRoom m (toInt cpu) (toInt mem) key →
        (schedulePodLoop m cpu mem order acc).2 ≤ (mapGet m key).cost := by
  induction order with
  | nil => intro acc; simp [schedulePodLoop]
  | cons key rest ih =>
    intro acc
    by_cases hc : (mapGet m key).cost < acc.2 ∧
        (isub (mapGet m key).cpu (toInt cpu) > 0 ∧ isub (mapGet m key).memory (toInt mem) > 0)
    · have hstep : schedulePodLoop m cpu mem (key :: rest) acc =
          schedulePodLoop m cpu mem rest (key, (mapGet m key).cost) := by
        simp only [schedulePodLoop, hc, and_self, if_true]
      rw [hstep]
      obtain ⟨h1, h2⟩ := ih (key, (mapGet m key).cost)
      refine ⟨le_trans h1 (le_of_lt hc.1), ?_⟩
      intro k hk hroom
      rcases List.mem_cons.mp hk with rfl | hk
      · exact h1
      · exact h2 k hk hroom
    · have hstep : schedulePodLoop m cpu mem (key :: rest) acc =
          schedulePodLoop m cpu mem rest acc := by
        simp only [schedulePodLoop, hc, if_false]
      rw [hstep]
      obtain ⟨h1, h2⟩ := ih acc
      refine ⟨h1, ?_⟩
      intro k hk hroom
      rcases List.mem_cons.mp hk with rfl | hk
      · have hge : acc.2 ≤ (mapGet m k).cost := by
          by_contra hlt
          exact hc ⟨lt_of_not_le hlt, hroom⟩
        exact le_trans h1 hge
      · exact h2 k hk hroom

theorem subtractPodLoop_choice (h : Heap) (c : nodeCache) (cpu mem : Int) (order : List String) :
    (∀ key ∈ order, ¬ hasRoom (h.read c.cache) cpu mem key) ∨
    ∃ N ∈ order, hasRoom (h.read c.cache) cpu mem N ∧
      ∀ h2 : Heap,
        (∀ key, (mapGet (h2.read c.cache) key).cpu = (mapGet (h.read c.cache) key).cpu ∧
          (mapGet (h2.read c.cache) key).memory = (mapGet (h.read c.cache) key).memory) →
        subtractPodLoop h2 c cpu mem order =
          (true, h2.write c.cache (mapSet (h2.read c.cache) N
            ⟨isub (mapGet (h2.read c.cache) N).cpu cpu,
              isub (mapGet (h2.read c.cache) N).memory mem,
              (mapGet (h2.read c.cache) N).cost⟩)) := by
  induction order with
  | nil => left; simp
  | cons key rest ih =>
    by_cases hroom : hasRoom (h.read c.cache) cpu mem key
    · right
      refine ⟨key, List.mem_cons_self _ _, hroom, ?_⟩
      intro h2 hagree
      have hroom2 : isub (mapGet (h2.read c.cache) key).cpu cpu > 0 ∧
          isub (mapGet (h2.read c.cache) key).memory mem > 0 := by
        unfold hasRoom at hroom
        rw [(hagree key).1, (hagree key).2]
        exact hroom
      simp only [subtractPodLoop, hroom2, and_self, if_true]
    · rcases ih with h1 | ⟨N, hN, hr, h1⟩
      · left
        intro k hk
        rcases List.mem_cons.mp hk with rfl | hk
        · exact hroom
        · exact h1 k hk
      · right
        refine ⟨N, List.mem_cons_of_mem _ hN, hr, ?_⟩
        intro h2 hagree
        have hroom2 : ¬ (isub (mapGet (h2.read c.cache) key).cpu cpu > 0 ∧
            isub (mapGet (h2.read c.cache) key).memory mem > 0) := by
          unfold hasRoom at hroom
          rw [(hagree key).1, (hagree key).2]
          exact hroom
        have hstep : subtractPodLoop h2 c cpu mem (key :: rest) =
            subtractPodLoop h2 c cpu mem rest := by
          simp only [subtractPodLoop, hroom2, if_false]
        rw [hstep]
        exact h1 h2 hagree

/-- Non-negative residuals and a non-negative request, all values of `int`, never make a
subtraction of the request leave the 64-bit range. -/
theorem NoOverflow.of_nonneg (m : ResourceMap) (cpu mem : Int)
    (hm : ∀ key ∈ mapKeys m, (0 ≤ (mapGet m key).cpu ∧ (mapGet m key).cpu ≤ maxInt) ∧
      (0 ≤ (mapGet m key).memory ∧ (mapGet m key).memory ≤ maxInt))
    (hcpu : 0 ≤ cpu ∧ cpu ≤ maxInt) (hmem : 0 ≤ mem ∧ mem ≤ maxInt) :
    NoOverflow m cpu mem := by
  intro key hkey
  have h0 := hm key hkey
  unfold maxInt at h0 hcpu hmem
  unfold inRange minInt maxInt
  constructor <;> constructor <;> omega

/-- Without overflow, and for a visiting order that is a permutation of distinct keys:
some entry has `cpu > cpu` and `memory > mem` if and only if some visited key passes the
room test of the code. -/
theorem exists_room_iff (m : ResourceMap) (order : List String) (cpu mem : Int)
    (hnodup : (mapKeys m).Nodup) (hord : order.Perm (mapKeys m))
    (hno : NoOverflow m cpu mem) :
    (∃ e ∈ m, e.2.cpu > cpu ∧ e.2.memory > mem) ↔ ∃ key ∈ order, hasRoom m cpu mem key := by
  constructor
  · rintro ⟨⟨key, v⟩, he, h1, h2⟩
    obtain ⟨hk, hv⟩ := (mem_iff_mapGet _ hnodup key v).mp he
    refine ⟨key, hord.mem_iff.mpr hk, ?_⟩
    rw [hasRoom_iff_roomExact _ _ _ _ (hno key hk)]
    unfold roomExact
    rw [hv]
    simp only at h1 h2
    constructor <;> omega
  · rintro ⟨key, hkey, hroom⟩
    have hk : key ∈ mapKeys m := hord.mem_iff.mp hkey
    rw [hasRoom_iff_roomExact _ _ _ _ (hno key hk)] at hroom
    unfold roomExact at hroom
    refine ⟨(key, mapGet m key), (mem_iff_mapGet _ hnodup key _).mpr ⟨hk, rfl⟩, ?_, ?_⟩
    · simp only; omega
    · simp only; omega

/-! ## The claims -/

/-- C1 (code defect, evaluated). On the empty cache with request cpu 1, mem 1 no node has
room, yet `schedulePod` returns the empty name without any error and assigns an entry under
the empty key; a second call with the same request changes that entry again. -/
theorem schedulePod_infeasible_writes_empty_key :
    schedulePod ⟨[[]]⟩ ⟨0⟩ [] "1" "1" = ("", ⟨[[("", ⟨-1, -1, 100⟩)]]⟩) ∧
    schedulePod ⟨[[("", ⟨-1, -1, 100⟩)]]⟩ ⟨0⟩ [""] "1" "1" =
      ("", ⟨[[("", ⟨-2, -2, 100⟩)]]⟩) := by
  decide

/-- Whenever no visited node has room, `schedulePod` returns the empty name and leaves an
entry under the empty key whose cost is the initial `minCost`. -/
theorem schedulePod_no_room (h : Heap) (c : nodeCache) (order : List String)
    (cpu mem : String) (hvalid : c.cache < h.maps.length)
    (hnone : ∀ key ∈ order, ¬ hasRoom (h.read c.cache) (toInt cpu) (toInt mem) key) :
    (schedulePod h c order cpu mem).1 = "" ∧
    "" ∈ mapKeys ((schedulePod h c order cpu mem).2.read c.cache) ∧
    mapGet ((schedulePod h c order cpu mem).2.read c.cache) "" =
      ⟨isub (mapGet (h.read c.cache) "").cpu (toInt cpu),
        isub (mapGet (h.read c.cache) "").memory (toInt mem), 100⟩ := by
  have hloop : schedulePodLoop (h.read c.cache) cpu mem order ("", 100) = ("", 100) := by
    rcases schedulePodLoop_cases (h.read c.cache) cpu mem order ("", 100) with
      h1 | ⟨h1, _, h3, _⟩
    · exact h1
    · exact absurd h3 (hnone _ h1)
  refine ⟨?_, ?_, ?_⟩
  · simp only [schedulePod, hloop]
  · simp only [schedulePod, hloop]
    rw [Heap.read_write_same _ _ _ hvalid]
    exact mem_mapKeys_mapSet _ _ _
  · simp only [schedulePod, hloop]
    rw [Heap.read_write_same _ _ _ hvalid]
    exact mapGet_mapSet_same _ _ _

/-- C2 (code defect, evaluated). Node A (cpu 8, mem 16, cost 100) has room for the request
cpu 2, mem 4, yet `schedulePod` returns the empty name, which is not a node of the cache,
and assigns an entry under the empty key: a cost of 100 or more is never below the
initial `minCost`. -/
theorem schedulePod_cost_100_never_selected :
    schedulePod ⟨[[("A", ⟨8, 16, 100⟩)]]⟩ ⟨0⟩ ["A"] "2" "4" =
      ("", ⟨[[("A", ⟨8, 16, 100⟩), ("", ⟨-2, -4, 100⟩)]]⟩) := by
  decide

/-- The scenario of the specification: with A (cpu 8, mem 16, cost 1) and B (cpu 4, mem 8,
cost 0) and the request cpu 2, mem 4, `schedulePod` returns B in both visiting orders. -/
theorem schedulePod_scenario_returns_B :
    (schedulePod heapAB ⟨0⟩ ["A", "B"] "2" "4").1 = "B" ∧
    (schedulePod heapAB ⟨0⟩ ["B", "A"] "2" "4").1 = "B" := by
  decide

/-- What `schedulePod` does select: when some visited node with room has a cost below 100,
the returned node was visited, had room before the call, and no visited node with room has
a lower cost. -/
theorem schedulePod_selects_min_cost (h : Heap) (c : nodeCache) (order : List String)
    (cpu mem : String)
    (hsel : ∃ key ∈ order, (mapGet (h.read c.cache) key).cost < 100 ∧
      hasRoom (h.read c.cache) (toInt cpu) (toInt mem) key) :
    (schedulePod h c order cpu mem).1 ∈ order ∧
    hasRoom (h.read c.cache) (toInt cpu) (toInt mem) (schedulePod h c order cpu mem).1 ∧
    ∀ key ∈ order, hasRoom (h.read c.cache) (toInt cpu) (toInt mem) key →
      (mapGet (h.read c.cache) (schedulePod h c order cpu mem).1).cost ≤
        (mapGet (h.read c.cache) key).cost := by
  have hlt := schedulePodLoop_lt (h.read c.cache) cpu mem order ("", 100) hsel
  have hle := (schedulePodLoop_le (h.read c.cache) cpu mem order ("", 100)).2
  simp only [schedulePod]
  rcases schedulePodLoop_cases (h.read c.cache) cpu mem order ("", 100) with
    h1 | ⟨h1, h2, h3, _⟩
  · rw [h1] at hlt; exact absurd hlt (lt_irrefl _)
  · refine ⟨h1, h3, ?_⟩
    intro key hkey hroom
    rw [← h2]
    exact hle key hkey hroom

/-- C3. For a pod whose spark-role label is "driver" and a cache object that exists in the
heap: `chooseNode` returns an error exactly when `podFits` on the driver request is false
or `multiplePodsFit` on the executor group is false; and in that case the cache holds the
same entries after the call and `ScheduleCycle` adds nothing to the binding queue nor to
the events queue. -/
theorem chooseNode_driver_rejects_iff (g : Globals) (o : RangeOrders) (pod : Pod)
    (hrole : label pod POD_ROLE_LABEL_KEY = DRIVER_POD_LABEL_VALUE)
    (hvalid : g.nodeUsageCache.cache < g.heap.maps.length) :
    ((chooseNode g.heap g.nodeUsageCache o pod).1.2 ≠ none ↔
      ((podFits g.heap g.nodeUsageCache o.fits (label pod DRIVER_CPU_LABEL_KEY)
          (label pod DRIVER_MEM_LABEL_KEY)).1 = false ∨
        (multiplePodsFit g.heap g.nodeUsageCache o.clone o.sub
          (label pod DRIVER_EXEC_COUNT_LABEL_KEY) (label pod DRIVER_EXEC_CPU_LABEL_KEY)
          (label pod DRIVER_EXEC_MEM_LABEL_KEY)).1 = false)) ∧
    ((chooseNode g.heap g.nodeUsageCache o pod).1.2 ≠ none →
      (chooseNode g.heap g.nodeUsageCache o pod).2.read g.nodeUsageCache.cache =
        g.heap.read g.nodeUsageCache.cache ∧
      (ScheduleCycle g o pod).heap.read g.nodeUsageCache.cache =
        g.heap.read g.nodeUsageCache.cache ∧
      (ScheduleCycle g o pod).bindingQueue = g.bindingQueue ∧
      (ScheduleCycle g o pod).eventsQueue = g.eventsQueue) := by
  obtain ⟨h1, h2⟩ := chooseNode_driver_error g.heap g.nodeUsageCache o pod hrole
  refine ⟨h1, ?_⟩
  intro herr
  have hread : (chooseNode g.heap g.nodeUsageCache o pod).2.read g.nodeUsageCache.cache =
      g.heap.read g.nodeUsageCache.cache := by
    rcases h2 herr with e | e
    · rw [e]
    · rw [e]; exact multiplePodsFit_read_self _ _ _ _ _ _ _ hvalid
  refine ⟨hread, ?_, ?_, ?_⟩
  · simp only [ScheduleCycle, herr, ne_eq, not_false_eq_true, if_true]
    exact hread
  · simp only [ScheduleCycle, herr, ne_eq, not_false_eq_true, if_true]
  · simp only [ScheduleCycle, herr, ne_eq, not_false_eq_true, if_true]

/-- C3 at the scenario of the specification: one node with cpu 4, mem 8; the driver
requests cpu 1, mem 2 with five executors of cpu 1, mem 1. `podFits` is true,
`multiplePodsFit` is false, the driver is rejected and nothing is enqueued. -/
theorem chooseNode_driver_rejects_iff_witness :
    (label driverPod5 POD_ROLE_LABEL_KEY = DRIVER_POD_LABEL_VALUE ∧
      globalsA.nodeUsageCache.cache < globalsA.heap.maps.length) ∧
    (podFits heapA ⟨0⟩ ["A"] "1" "2").1 = true ∧
    (multiplePodsFit heapA ⟨0⟩ ["A"] (fun _ => ["A"]) "5" "1" "1").1 = false ∧
    (chooseNode heapA ⟨0⟩ ordersA driverPod5).1.2 ≠ none ∧
    (ScheduleCycle globalsA ordersA driverPod5).heap.read 0 = heapA.read 0 ∧
    (ScheduleCycle globalsA ordersA driverPod5).bindingQueue = [] ∧
    (ScheduleCycle globalsA ordersA driverPod5).eventsQueue = [] :=
  ⟨⟨by decide, by decide⟩, by decide, by decide, by decide,
    ((chooseNode_driver_rejects_iff globalsA ordersA driverPod5 (by decide) (by decide)).2
      (by decide)).2⟩

/-- C4 (code defect, evaluated). With the single node A (cpu 1, mem 1) and an executor
requesting cpu 2, mem 2, no node has room, yet `chooseNode` returns the empty name with a
nil error, `ScheduleCycle` enqueues a Binding to the empty node name and an Event, and the
cache receives an entry under the empty key. -/
theorem chooseNode_executor_no_room_no_error :
    chooseNode ⟨[[("A", ⟨1, 1, 0⟩)]]⟩ ⟨0⟩ ordersA executorPod2 =
      (("", none), ⟨[[("A", ⟨1, 1, 0⟩), ("", ⟨-2, -2, 100⟩)]]⟩) ∧
    ScheduleCycle ⟨⟨[[("A", ⟨1, 1, 0⟩)]]⟩, ⟨0⟩, [], []⟩ ordersA executorPod2 =
      ⟨⟨[[("A", ⟨1, 1, 0⟩), ("", ⟨-2, -2, 100⟩)]]⟩, ⟨0⟩,
        [⟨executorPod2, "Placed pod [default/spark-exec-1] on \n"⟩],
        [⟨executorPod2, ""⟩]⟩ := by
  decide

/-- C5 (counterexample). On the single node A (cpu 4, mem 8) the driver requesting cpu 1,
mem 1 with three executors of cpu 1, mem 1 is accepted by `chooseNode`, and on the cache
as it stands after the commit of the driver `multiplePodsFit` for the three executors is
false. -/
theorem chooseNode_driver_accepted_gang_no_longer_fits :
    (chooseNode heapA ⟨0⟩ ordersA driverPod3).1 = ("A", none) ∧
    (multiplePodsFit heapA ⟨0⟩ ["A"] (fun _ => ["A"]) "3" "1" "1").1 = true ∧
    (multiplePodsFit (chooseNode heapA ⟨0⟩ ordersA driverPod3).2 ⟨0⟩ ["A"] (fun _ => ["A"])
      "3" "1" "1").1 = false := by
  decide

/-- C5 (as amended). For a pod whose spark-role label is "driver" that `chooseNode`
accepts: on the cache as it stood before the commit of the driver, `podFits` on the driver
request is true and `multiplePodsFit` on the executor group is true. -/
theorem chooseNode_driver_accepts_gang_fit_before (h : Heap) (cache : nodeCache)
    (o : RangeOrders) (pod : Pod)
    (hrole : label pod POD_ROLE_LABEL_KEY = DRIVER_POD_LABEL_VALUE)
    (hacc : (chooseNode h cache o pod).1.2 = none) :
    (podFits h cache o.fits (label pod DRIVER_CPU_LABEL_KEY)
      (label pod DRIVER_MEM_LABEL_KEY)).1 = true ∧
    (multiplePodsFit h cache o.clone o.sub (label pod DRIVER_EXEC_COUNT_LABEL_KEY)
      (label pod DRIVER_EXEC_CPU_LABEL_KEY) (label pod DRIVER_EXEC_MEM_LABEL_KEY)).1 = true := by
  have h1 := (chooseNode_driver_error h cache o pod hrole).1
  have h2 : ¬ ((podFits h cache o.fits (label pod DRIVER_CPU_LABEL_KEY)
          (label pod DRIVER_MEM_LABEL_KEY)).1 = false ∨
        (multiplePodsFit h cache o.clone o.sub (label pod DRIVER_EXEC_COUNT_LABEL_KEY)
          (label pod DRIVER_EXEC_CPU_LABEL_KEY) (label pod DRIVER_EXEC_MEM_LABEL_KEY)).1 = false) :=
    fun hor => (h1.mpr hor) hacc
  rw [not_or] at h2
  exact ⟨by simpa using h2.1, by simpa using h2.2⟩

/-- C5 (as amended) at the accepted driver of the counterexample. -/
theorem chooseNode_driver_accepts_gang_fit_before_witness :
    (label driverPod3 POD_ROLE_LABEL_KEY = DRIVER_POD_LABEL_VALUE ∧
      (chooseNode heapA ⟨0⟩ ordersA driverPod3).1.2 = none) ∧
    (podFits heapA ⟨0⟩ ordersA.fits (label driverPod3 DRIVER_CPU_LABEL_KEY)
      (label driverPod3 DRIVER_MEM_LABEL_KEY)).1 = true ∧
    (multiplePodsFit heapA ⟨0⟩ ordersA.clone ordersA.sub
      (label driverPod3 DRIVER_EXEC_COUNT_LABEL_KEY) (label driverPod3 DRIVER_EXEC_CPU_LABEL_KEY)
      (label driverPod3 DRIVER_EXEC_MEM_LABEL_KEY)).1 = true :=
  ⟨⟨by decide, by decide⟩,
    chooseNode_driver_accepts_gang_fit_before heapA ⟨0⟩ ordersA driverPod3 (by decide)
      (by decide)⟩

/-- C6 (counterexample). On the cache that holds node A (cpu 1, mem 1) and the entry
(cpu -2, mem -2) under the empty key, one unit of cpu 9223372036854775807 and mem
9223372036854775807 is accepted by `multiplePodsFit`, because `-2 - 9223372036854775807`
wraps around to a positive value, while no distribution of that unit exists. -/
theorem multiplePodsFit_wraps_without_distribution :
    (multiplePodsFit heapAfterFailure ⟨0⟩ ["A", ""] (fun _ => ["A", ""]) "1"
      "9223372036854775807" "9223372036854775807").1 = true ∧
    ¬ ∃ k : String → Nat,
      (((mapKeys (heapAfterFailure.read 0)).map k).sum : Int) = toInt "1" ∧
      ∀ n ∈ mapKeys (heapAfterFailure.read 0), 0 < k n →
        (mapGet (heapAfterFailure.read 0) n).cpu -
          (k n : Int) * toInt "9223372036854775807" > 0 ∧
        (mapGet (heapAfterFailure.read 0) n).memory -
          (k n : Int) * toInt "9223372036854775807" > 0 := by
  refine ⟨by decide, ?_⟩
  rintro ⟨k, hsum, hcond⟩
  have hkeys : mapKeys (heapAfterFailure.read 0) = ["A", ""] := by decide
  have hA : mapGet (heapAfterFailure.read 0) "A" = ⟨1, 1, 0⟩ := by decide
  have hE : mapGet (heapAfterFailure.read 0) "" = ⟨-2, -2, 100⟩ := by decide
  have hmax : toInt "9223372036854775807" = 9223372036854775807 := by decide
  have hone : toInt "1" = 1 := by decide
  have h1 := hcond "A" (by rw [hkeys]; simp)
  have h2 := hcond "" (by rw [hkeys]; simp)
  rw [hA, hmax] at h1
  rw [hE, hmax] at h2
  rw [hkeys, hone] at hsum
  simp only [List.map_cons, List.map_nil, List.sum_cons, List.sum_nil, add_zero,
    Nat.cast_add] at hsum
  simp only at h1 h2
  omega

/-- C6 (as amended). For a cache with distinct keys in which no node makes the subtraction
of the request leave the 64-bit range, visiting orders that are permutations of the keys,
a count `>= 0` and a request with `cpu >= 0` and `mem >= 0`: `multiplePodsFit` returns true
if and only if the `count` units can be distributed over the nodes, node `n` taking `k n`
units, so that every node taking at least one unit keeps `cpu - k n * cpu > 0` and
`memory - k n * mem > 0`. The right-hand side does not mention the visiting orders: the
result does not depend on them. -/
theorem multiplePodsFit_iff_distribution (h : Heap) (c : nodeCache) (cloneOrder : List String)
    (orders : Nat → List String) (podCount podCPU podMEM : String)
    (hvalid : c.cache < h.maps.length)
    (hnodup : (mapKeys (h.read c.cache)).Nodup)
    (hclone : cloneOrder.Perm (mapKeys (h.read c.cache)))
    (horders : ∀ i, (orders i).Perm (mapKeys (h.read c.cache)))
    (hcount : 0 ≤ toInt podCount) (hcpu : 0 ≤ toInt podCPU) (hmem : 0 ≤ toInt podMEM)
    (hno : NoOverflow (h.read c.cache) (toInt podCPU) (toInt podMEM)) :
    (multiplePodsFit h c cloneOrder orders podCount podCPU podMEM).1 = true ↔
      ∃ k : String → Nat,
        (((mapKeys (h.read c.cache)).map k).sum : Int) = toInt podCount ∧
        ∀ n ∈ mapKeys (h.read c.cache), 0 < k n →
          (mapGet (h.read c.cache) n).cpu - (k n : Int) * toInt podCPU > 0 ∧
          (mapGet (h.read c.cache) n).memory - (k n : Int) * toInt podMEM > 0 := by
  obtain ⟨hc1, hc2, _, hc4⟩ := clone_spec h c cloneOrder hvalid
  obtain ⟨_, hp2, hp3, hp4⟩ := cloneMap_perm (h.read c.cache) cloneOrder hnodup hclone
  have hcn : cloneOrder.Nodup := hclone.nodup_iff.mpr hnodup
  have hnoc : NoOverflow (cloneMap (h.read c.cache) cloneOrder []) (toInt podCPU)
      (toInt podMEM) := by
    intro key hkey
    rw [hp3] at hkey
    rw [hp4 key]
    exact hno key (hclone.mem_iff.mp hkey)
  simp only [multiplePodsFit]
  rw [multiplePodsFitLoop_iff (clone h c cloneOrder).1 orders (toInt podCPU) (toInt podMEM)
    hcpu hmem (toInt_inRange podCPU).2 (toInt_inRange podMEM).2 (toInt podCount).toNat 0
    (clone h c cloneOrder).2
    (by rw [hc1, hc2]; omega)
    (by rw [hc4, hp3]; exact hcn)
    (by
      intro j key
      rw [hc4, hp3]
      exact ((horders j).trans hclone.symm).mem_iff)
    (by rw [hc4]; exact hnoc)]
  rw [hc4]
  have hkp : (mapKeys (cloneMap (h.read c.cache) cloneOrder [])).Perm (mapKeys (h.read c.cache)) := by
    rw [hp3]; exact hclone
  constructor
  · rintro ⟨k, hd⟩
    have hd2 := hd.congr hkp.symm (fun key => (hp4 key).symm)
    refine ⟨k, ?_, hd2.2⟩
    rw [hd2.1]
    exact Int.toNat_of_nonneg hcount
  · rintro ⟨k, hsum, hcond⟩
    have hd : Distribution (h.read c.cache) (toInt podCPU) (toInt podMEM)
        (toInt podCount).toNat k := by
      refine ⟨?_, hcond⟩
      omega
    exact ⟨k, hd.congr hkp hp4⟩

/-- C6 (as amended) on the two-node cluster: four units of cpu 2, mem 4 fit, and a
distribution exists. -/
theorem multiplePodsFit_iff_distribution_witness :
    (0 < heapAB.maps.length ∧ (mapKeys (heapAB.read 0)).Nodup ∧
      ["B", "A"].Perm (mapKeys (heapAB.read 0)) ∧
      (∀ i : Nat, ((fun _ => ["A", "B"]) i : List String).Perm (mapKeys (heapAB.read 0))) ∧
      0 ≤ toInt "4" ∧ 0 ≤ toInt "2" ∧ 0 ≤ toInt "4" ∧
      NoOverflow (heapAB.read 0) (toInt "2") (toInt "4")) ∧
    (multiplePodsFit heapAB ⟨0⟩ ["B", "A"] (fun _ => ["A", "B"]) "4" "2" "4").1 = true ∧
    ∃ k : String → Nat,
      (((mapKeys (heapAB.read 0)).map k).sum : Int) = toInt "4" ∧
      ∀ n ∈ mapKeys (heapAB.read 0), 0 < k n →
        (mapGet (heapAB.read 0) n).cpu - (k n : Int) * toInt "2" > 0 ∧
        (mapGet (heapAB.read 0) n).memory - (k n : Int) * toInt "4" > 0 :=
  ⟨⟨by decide, by decide, by decide,
      fun _ => (by decide : ["A", "B"].Perm (mapKeys (heapAB.read 0))),
      by decide, by decide, by decide, by decide⟩,
    by decide,
    (multiplePodsFit_iff_distribution heapAB ⟨0⟩ ["B", "A"] (fun _ => ["A", "B"]) "4" "2" "4"
      (by decide) (by decide) (by decide)
      (fun _ => (by decide : ["A", "B"].Perm (mapKeys (heapAB.read 0))))
      (by decide) (by decide) (by decide) (by decide)).mp (by decide)⟩

/-- C7. For a cache object that exists in the heap, with distinct keys, visited by `clone`
in any order: the clone is a different object with exactly the entries of the original;
`clone` leaves the original as it was; a `subtractPod` applied to the clone changes no
other object; and after `multiplePodsFit`, whatever it returns, the original holds the
same entries (keys, cpu, memory, cost) as before. -/
theorem multiplePodsFit_leaves_cache (h : Heap) (c : nodeCache) (cloneOrder : List String)
    (orders : Nat → List String) (podCount podCPU podMEM : String)
    (hvalid : c.cache < h.maps.length)
    (hnodup : (mapKeys (h.read c.cache)).Nodup)
    (hclone : cloneOrder.Perm (mapKeys (h.read c.cache))) :
    (clone h c cloneOrder).1.cache ≠ c.cache ∧
    ((clone h c cloneOrder).2.read (clone h c cloneOrder).1.cache).Perm (h.read c.cache) ∧
    (clone h c cloneOrder).2.read c.cache = h.read c.cache ∧
    (∀ (h2 : Heap) (order : List String) (cpu mem : Int) (r : Nat),
      r ≠ (clone h c cloneOrder).1.cache →
      (subtractPod h2 (clone h c cloneOrder).1 order cpu mem).2.read r = h2.read r) ∧
    (multiplePodsFit h c cloneOrder orders podCount podCPU podMEM).2.read c.cache =
      h.read c.cache := by
  obtain ⟨hc1, _, hc3, hc4⟩ := clone_spec h c cloneOrder hvalid
  obtain ⟨_, hp2, _, _⟩ := cloneMap_perm (h.read c.cache) cloneOrder hnodup hclone
  have hne : c.cache ≠ (clone h c cloneOrder).1.cache := by rw [hc1]; omega
  refine ⟨hne.symm, ?_, hc3, ?_, ?_⟩
  · rw [hc4]; exact hp2
  · intro h2 order cpu mem r hr
    exact subtractPod_read_other h2 _ order cpu mem r hr
  · simp only [multiplePodsFit]
    rw [multiplePodsFitLoop_read_other _ orders _ _ c.cache hne]
    exact hc3

/-- C7 on the two-node cluster: five units of cpu 2, mem 4 do not fit, and the cache is
as before. -/
theorem multiplePodsFit_leaves_cache_witness :
    (0 < heapAB.maps.length ∧ (mapKeys (heapAB.read 0)).Nodup ∧
      ["B", "A"].Perm (mapKeys (heapAB.read 0))) ∧
    (multiplePodsFit heapAB ⟨0⟩ ["B", "A"] (fun _ => ["A", "B"]) "5" "2" "4").1 = false ∧
    (multiplePodsFit heapAB ⟨0⟩ ["B", "A"] (fun _ => ["A", "B"]) "5" "2" "4").2.read 0 =
      heapAB.read 0 :=
  ⟨⟨by decide, by decide, by decide⟩, by decide,
    (multiplePodsFit_leaves_cache heapAB ⟨0⟩ ["B", "A"] (fun _ => ["A", "B"]) "5" "2" "4"
      (by decide) (by decide) (by decide)).2.2.2.2⟩

/-- C8 (counterexample). On the single node A (cpu -2, mem 5, cost 0) with the request cpu
9223372036854775807, mem 0, `schedulePod` selects and returns A, a node of the cache, and
the cpu of A afterwards is 9223372036854775807: the wrapped difference, not the previous
value minus the request. -/
theorem schedulePod_commit_wraps :
    (schedulePod ⟨[[("A", ⟨-2, 5, 0⟩)]]⟩ ⟨0⟩ ["A"] "9223372036854775807" "0").1 = "A" ∧
    "A" ∈ mapKeys ((⟨[[("A", ⟨-2, 5, 0⟩)]]⟩ : Heap).read 0) ∧
    (mapGet ((schedulePod ⟨[[("A", ⟨-2, 5, 0⟩)]]⟩ ⟨0⟩ ["A"] "9223372036854775807"
      "0").2.read 0) "A").cpu = 9223372036854775807 ∧
    (mapGet ((⟨[[("A", ⟨-2, 5, 0⟩)]]⟩ : Heap).read 0) "A").cpu -
      toInt "9223372036854775807" = -9223372036854775809 := by
  decide

/-- C8 (as amended). When `schedulePod` succeeds, that is, its loop selects a node (some
visited node passes the room test of the code and has a cost below the initial
`minCost`), and the returned node `N` is a key of the cache: after the call the cpu of `N`
is its previous cpu minus the request as Go computes it, which is the exact difference
whenever that difference is a 64-bit value, likewise its memory; its cost is unchanged,
the cache has the same keys, and every other node has the same entry as before. -/
theorem schedulePod_commit_frame (h : Heap) (c : nodeCache) (order : List String)
    (cpu mem : String)
    (hvalid : c.cache < h.maps.length)
    (hsel : ∃ key ∈ order, (mapGet (h.read c.cache) key).cost < 100 ∧
      isub (mapGet (h.read c.cache) key).cpu (toInt cpu) > 0 ∧
      isub (mapGet (h.read c.cache) key).memory (toInt mem) > 0)
    (hex : (schedulePod h c order cpu mem).1 ∈ mapKeys (h.read c.cache)) :
    (mapGet ((schedulePod h c order cpu mem).2.read c.cache)
        (schedulePod h c order cpu mem).1).cpu =
      isub (mapGet (h.read c.cache) (schedulePod h c order cpu mem).1).cpu (toInt cpu) ∧
    (mapGet ((schedulePod h c order cpu mem).2.read c.cache)
        (schedulePod h c order cpu mem).1).memory =
      isub (mapGet (h.read c.cache) (schedulePod h c order cpu mem).1).memory (toInt mem) ∧
    (inRange ((mapGet (h.read c.cache) (schedulePod h c order cpu mem).1).cpu - toInt cpu) →
      (mapGet ((schedulePod h c order cpu mem).2.read c.cache)
          (schedulePod h c order cpu mem).1).cpu =
        (mapGet (h.read c.cache) (schedulePod h c order cpu mem).1).cpu - toInt cpu) ∧
    (inRange ((mapGet (h.read c.cache) (schedulePod h c order cpu mem).1).memory - toInt mem) →
      (mapGet ((schedulePod h c order cpu mem).2.read c.cache)
          (schedulePod h c order cpu mem).1).memory =
        (mapGet (h.read c.cache) (schedulePod h c order cpu mem).1).memory - toInt mem) ∧
    (mapGet ((schedulePod h c order cpu mem).2.read c.cache)
        (schedulePod h c order cpu mem).1).cost =
      (mapGet (h.read c.cache) (schedulePod h c order cpu mem).1).cost ∧
    mapKeys ((schedulePod h c order cpu mem).2.read c.cache) = mapKeys (h.read c.cache) ∧
    ∀ key, key ≠ (schedulePod h c order cpu mem).1 →
      mapGet ((schedulePod h c order cpu mem).2.read c.cache) key =
        mapGet (h.read c.cache) key := by
  have hsel2 : ∃ key ∈ order, (mapGet (h.read c.cache) key).cost < (("", 100) : String × Int).2 ∧
      hasRoom (h.read c.cache) (toInt cpu) (toInt mem) key := by
    obtain ⟨key, hkey, h1, h2, h3⟩ := hsel
    exact ⟨key, hkey, h1, h2, h3⟩
  have hlt := schedulePodLoop_lt (h.read c.cache) cpu mem order ("", 100) hsel2
  have hcost : (schedulePodLoop (h.read c.cache) cpu mem order ("", 100)).2 =
      (mapGet (h.read c.cache) (schedulePodLoop (h.read c.cache) cpu mem order ("", 100)).1).cost := by
    rcases schedulePodLoop_cases (h.read c.cache) cpu mem order ("", 100) with h1 | ⟨_, h2, _, _⟩
    · rw [h1] at hlt; exact absurd hlt (lt_irrefl _)
    · exact h2
  simp only [schedulePod] at hex ⊢
  rw [Heap.read_write_same _ _ _ hvalid]
  rw [mapGet_mapSet_same]
  refine ⟨rfl, rfl, ?_, ?_, hcost, mapKeys_mapSet_of_mem _ _ _ hex, ?_⟩
  · intro hr
    exact isub_of_inRange _ _ hr
  · intro hr
    exact isub_of_inRange _ _ hr
  · intro key hne
    exact mapGet_mapSet_other _ _ _ _ hne

/-- C8 (as amended) on the two-node cluster: the request cpu 2, mem 4 is committed on B. -/
theorem schedulePod_commit_frame_witness :
    (0 < heapAB.maps.length ∧
      (∃ key ∈ ["A", "B"], (mapGet (heapAB.read 0) key).cost < 100 ∧
        isub (mapGet (heapAB.read 0) key).cpu (toInt "2") > 0 ∧
        isub (mapGet (heapAB.read 0) key).memory (toInt "4") > 0) ∧
      (schedulePod heapAB ⟨0⟩ ["A", "B"] "2" "4").1 ∈ mapKeys (heapAB.read 0)) ∧
    (schedulePod heapAB ⟨0⟩ ["A", "B"] "2" "4").1 = "B" ∧
    (mapGet ((schedulePod heapAB ⟨0⟩ ["A", "B"] "2" "4").2.read 0)
        (schedulePod heapAB ⟨0⟩ ["A", "B"] "2" "4").1).cpu =
      (mapGet (heapAB.read 0) (schedulePod heapAB ⟨0⟩ ["A", "B"] "2" "4").1).cpu - toInt "2" :=
  ⟨⟨by decide, ⟨"A", by decide, by decide, by decide, by decide⟩, by decide⟩, by decide,
    (schedulePod_commit_frame heapAB ⟨0⟩ ["A", "B"] "2" "4" (by decide)
      ⟨"A", by decide, by decide, by decide, by decide⟩ (by decide)).2.2.1 (by decide)⟩

/-- C9 (counterexample). On the cache that holds node A (cpu 1, mem 1) and the entry
(cpu -2, mem -2) under the empty key, `podFits` is true for the request cpu
9223372036854775807, mem 9223372036854775807 although no entry has more cpu and more
memory than requested; and on the single node A (cpu 4, mem 8) `podFits` is false for the
request cpu -9223372036854775808, mem 0 although A has more cpu and more memory than
requested. In both cases a subtraction wraps around. -/
theorem podFits_wraps :
    ((podFits heapAfterFailure ⟨0⟩ ["A", ""] "9223372036854775807"
        "9223372036854775807").1 = true ∧
      ¬ ∃ e ∈ heapAfterFailure.read 0,
        e.2.cpu > toInt "9223372036854775807" ∧ e.2.memory > toInt "9223372036854775807") ∧
    ((podFits heapA ⟨0⟩ ["A"] "-9223372036854775808" "0").1 = false ∧
      ∃ e ∈ heapA.read 0,
        e.2.cpu > toInt "-9223372036854775808" ∧ e.2.memory > toInt "0") := by
  decide

/-- C9 (as amended). For a cache with distinct keys visited in any order (a permutation of
its keys) and a request given as label strings, such that no node makes the subtraction
of the request leave the 64-bit range: `podFits` returns true if and only if some entry
of the cache has `cpu > toInt podCPU` and `memory > toInt podMEM`, both strictly; on the
empty cache it returns false; and the heap, hence the cache, is the same after the call. -/
theorem podFits_iff_some_node_has_room (h : Heap) (c : nodeCache) (order : List String)
    (podCPU podMEM : String)
    (hnodup : (mapKeys (h.read c.cache)).Nodup)
    (hord : order.Perm (mapKeys (h.read c.cache)))
    (hno : NoOverflow (h.read c.cache) (toInt podCPU) (toInt podMEM)) :
    ((podFits h c order podCPU podMEM).1 = true ↔
      ∃ e ∈ h.read c.cache, e.2.cpu > toInt podCPU ∧ e.2.memory > toInt podMEM) ∧
    (h.read c.cache = [] → (podFits h c order podCPU podMEM).1 = false) ∧
    (podFits h c order podCPU podMEM).2 = h := by
  have hiff : (podFits h c order podCPU podMEM).1 = true ↔
      ∃ e ∈ h.read c.cache, e.2.cpu > toInt podCPU ∧ e.2.memory > toInt podMEM := by
    simp only [podFits]
    rw [podFitsLoop_iff]
    exact (exists_room_iff _ order _ _ hnodup hord hno).symm
  refine ⟨hiff, ?_, rfl⟩
  intro hempty
  rw [Bool.eq_false_iff]
  intro htrue
  obtain ⟨e, he, _⟩ := hiff.mp htrue
  rw [hempty] at he
  simp at he

/-- C9 (as amended) on the two-node cluster: the request cpu 4, mem 8 fits, on node A
only. -/
theorem podFits_iff_some_node_has_room_witness :
    ((mapKeys (heapAB.read 0)).Nodup ∧ ["B", "A"].Perm (mapKeys (heapAB.read 0)) ∧
      NoOverflow (heapAB.read 0) (toInt "4") (toInt "8")) ∧
    (podFits heapAB ⟨0⟩ ["B", "A"] "4" "8").1 = true ∧
    ∃ e ∈ heapAB.read 0, e.2.cpu > toInt "4" ∧ e.2.memory > toInt "8" :=
  ⟨⟨by decide, by decide, by decide⟩, by decide,
    (podFits_iff_some_node_has_room heapAB ⟨0⟩ ["B", "A"] "4" "8" (by decide)
      (by decide) (by decide)).1.mp (by decide)⟩

/-- C10 (code defect, evaluated). When the successive `List` calls return 1, 1, 2, 2, 3, 3
nodes, `getNodeList` returns after the sixth call, with the result of the fifth, although
the four most recent calls returned 2, 2, 3 and 3 nodes: the counter counts equal pairs
and is never reset. -/
theorem getNodeList_returns_while_growing :
    getNodeList 3 growingLister = some (growingLister 4, 6) ∧
    [2, 3, 4, 5].map (fun i => (growingLister i).length) = [2, 2, 3, 3] := by
  decide

/-- With the request cpu 0, mem 0 the node that `subtractPod` assigns keeps its values: on
the single node A (cpu 1, mem 1) the call returns true and the cache is as before. -/
theorem subtractPod_zero_request_changes_nothing :
    subtractPod ⟨[[("A", ⟨1, 1, 0⟩)]]⟩ ⟨0⟩ ["A"] 0 0 = (true, ⟨[[("A", ⟨1, 1, 0⟩)]]⟩) := by
  decide

/-- C11 (counterexample). On the single node A (cpu 1, mem 1) the request cpu
-9223372036854775808, mem 0 is below what A has, yet `subtractPod` returns false; and on
the cache that holds A (cpu 1, mem 1) and the entry (cpu -2, mem -2) under the empty key,
no entry has more than cpu 9223372036854775807 and mem 9223372036854775807, yet
`subtractPod` returns true and assigns the entry under the empty key. In both cases a
subtraction wraps around. -/
theorem subtractPod_wraps :
    (subtractPod ⟨[[("A", ⟨1, 1, 0⟩)]]⟩ ⟨0⟩ ["A"] (-9223372036854775808) 0 =
        (false, ⟨[[("A", ⟨1, 1, 0⟩)]]⟩) ∧
      ∃ e ∈ (⟨[[("A", ⟨1, 1, 0⟩)]]⟩ : Heap).read 0,
        e.2.cpu > -9223372036854775808 ∧ e.2.memory > 0) ∧
    (subtractPod heapAfterFailure ⟨0⟩ ["A", ""] 9223372036854775807 9223372036854775807 =
        (true, ⟨[[("A", ⟨1, 1, 0⟩),
          ("", ⟨9223372036854775807, 9223372036854775807, 100⟩)]]⟩) ∧
      ¬ ∃ e ∈ heapAfterFailure.read 0,
        e.2.cpu > 9223372036854775807 ∧ e.2.memory > 9223372036854775807) := by
  decide

/-- C11 (as amended). For a cache object that exists in the heap, with distinct keys,
visited in any order (a permutation of its keys), such that no node makes the subtraction
of the request leave the 64-bit range: if no entry has `cpu > cpu` and `memory > mem`,
`subtractPod` returns false and the heap is as before. Otherwise it returns true and
there is a node `N` of the cache that had `cpu > cpu` and `memory > mem` before the call,
whose entry afterwards is its previous cpu minus `cpu`, its previous memory minus `mem`
and its previous cost; the keys are the same; every other node has the same entry; and on
every cache that agrees in cpu and memory, whatever the costs, the same `N` is the node
assigned. -/
theorem subtractPod_behaviour (h : Heap) (c : nodeCache) (order : List String) (cpu mem : Int)
    (hvalid : c.cache < h.maps.length)
    (hnodup : (mapKeys (h.read c.cache)).Nodup)
    (hord : order.Perm (mapKeys (h.read c.cache)))
    (hno : NoOverflow (h.read c.cache) cpu mem) :
    ((¬ ∃ e ∈ h.read c.cache, e.2.cpu > cpu ∧ e.2.memory > mem) →
      subtractPod h c order cpu mem = (false, h)) ∧
    ((∃ e ∈ h.read c.cache, e.2.cpu > cpu ∧ e.2.memory > mem) →
      (subtractPod h c order cpu mem).1 = true ∧
      ∃ N ∈ mapKeys (h.read c.cache),
        (mapGet (h.read c.cache) N).cpu > cpu ∧
        (mapGet (h.read c.cache) N).memory > mem ∧
        mapGet ((subtractPod h c order cpu mem).2.read c.cache) N =
          ⟨(mapGet (h.read c.cache) N).cpu - cpu, (mapGet (h.read c.cache) N).memory - mem,
            (mapGet (h.read c.cache) N).cost⟩ ∧
        mapKeys ((subtractPod h c order cpu mem).2.read c.cache) = mapKeys (h.read c.cache) ∧
        (∀ key, key ≠ N →
          mapGet ((subtractPod h c order cpu mem).2.read c.cache) key =
            mapGet (h.read c.cache) key) ∧
        ∀ h2 : Heap,
          (∀ key, (mapGet (h2.read c.cache) key).cpu = (mapGet (h.read c.cache) key).cpu ∧
            (mapGet (h2.read c.cache) key).memory = (mapGet (h.read c.cache) key).memory) →
          subtractPod h2 c order cpu mem =
            (true, h2.write c.cache (mapSet (h2.read c.cache) N
              ⟨(mapGet (h2.read c.cache) N).cpu - cpu,
                (mapGet (h2.read c.cache) N).memory - mem,
                (mapGet (h2.read c.cache) N).cost⟩))) := by
  have hex_iff := exists_room_iff (h.read c.cache) order cpu mem hnodup hord hno
  constructor
  · intro hnone
    rw [hex_iff] at hnone
    unfold subtractPod
    rcases subtractPodLoop_cases h c cpu mem order with ⟨h1, _⟩ | ⟨key, hkey, hroom, _⟩
    · exact h1
    · exact absurd ⟨key, hkey, hroom⟩ hnone
  · intro hyes
    rw [hex_iff] at hyes
    obtain ⟨key0, hkey0, hroom0⟩ := hyes
    rcases subtractPodLoop_choice h c cpu mem order with hnone | ⟨N, hN, hroom, hall⟩
    · exact absurd hroom0 (hnone key0 hkey0)
    · have hNk : N ∈ mapKeys (h.read c.cache) := hord.mem_iff.mp hN
      have hrN := hno N hNk
      have hself := hall h (fun _ => ⟨rfl, rfl⟩)
      rw [isub_of_inRange _ _ hrN.1, isub_of_inRange _ _ hrN.2] at hself
      rw [hasRoom_iff_roomExact _ _ _ _ hrN] at hroom
      unfold roomExact at hroom
      unfold subtractPod
      rw [hself]
      refine ⟨rfl, N, hNk, ?_, ?_, ?_, ?_, ?_, ?_⟩
      · omega
      · omega
      · simp only
        rw [Heap.read_write_same _ _ _ hvalid, mapGet_mapSet_same]
      · simp only
        rw [Heap.read_write_same _ _ _ hvalid]
        exact mapKeys_mapSet_of_mem _ _ _ hNk
      · intro key hne
        simp only
        rw [Heap.read_write_same _ _ _ hvalid]
        exact mapGet_mapSet_other _ _ _ _ hne
      · intro h2 hagree
        have h3 := hall h2 hagree
        have e1 : isub (mapGet (h2.read c.cache) N).cpu cpu =
            (mapGet (h2.read c.cache) N).cpu - cpu := by
          apply isub_of_inRange
          rw [(hagree N).1]
          exact hrN.1
        have e2 : isub (mapGet (h2.read c.cache) N).memory mem =
            (mapGet (h2.read c.cache) N).memory - mem := by
          apply isub_of_inRange
          rw [(hagree N).2]
          exact hrN.2
        rw [e1, e2] at h3
        exact h3

/-- C11 (as amended) on the two-node cluster, visited B first: the request cpu 2, mem 4
is taken from B. -/
theorem subtractPod_behaviour_witness :
    (0 < heapAB.maps.length ∧ (mapKeys (heapAB.read 0)).Nodup ∧
      ["B", "A"].Perm (mapKeys (heapAB.read 0)) ∧ NoOverflow (heapAB.read 0) 2 4) ∧
    subtractPod heapAB ⟨0⟩ ["B", "A"] 2 4 =
      (true, ⟨[[("A", ⟨8, 16, 1⟩), ("B", ⟨2, 4, 0⟩)]]⟩) ∧
    (subtractPod heapAB ⟨0⟩ ["B", "A"] 2 4).1 = true :=
  ⟨⟨by decide, by decide, by decide, by decide⟩, by decide,
    ((subtractPod_behaviour heapAB ⟨0⟩ ["B", "A"] 2 4 (by decide) (by decide) (by decide)
      (by decide)).2 ⟨("A", ⟨8, 16, 1⟩), by decide, by decide, by decide⟩).1⟩

end GangScheduler
